import Mathlib

/-!
Verification of the workspace-synchronization engine of `reggie-build`
(`src/reggie_build/`): a shallow embedding of the manifest-document model
(`utils.py`, `pyproject.py`, `projects.py`) and of the synchronization
operations (`workspace_sync.py`), with proofs of the specified properties.

Documents are modelled content-wise: a TOML value is a scalar, an array, or a
table; tables are order-preserving association lists (Python `dict` /
`tomlkit.Table` preserve insertion order, which matters because serialization
is order-sensitive).  `Val.vNone` models Python `None`, which can occur inside
plain dictionaries handled by `utils.py` (TOML itself has no null).
-/

set_option autoImplicit false

namespace ReggieBuild

/-- A Python/TOML value as handled by the manifest document model:
scalars (`None`, `str`, `int`, `bool`), arrays (`list`) and tables
(`dict` / `tomlkit.Table`, insertion-ordered). -/
inductive Val where
  | vNone : Val
  | str : String → Val
  | int : Int → Val
  | bool : Bool → Val
  | arr : List Val → Val
  | table : List (String × Val) → Val

abbrev Table := List (String × Val)

/-- First binding of key `k` (Python `dict.get(k)` / `Mapping.get`). -/
def lookup (k : String) : Table → Option Val
  | [] => none
  | (k', v) :: rest => if k' = k then some v else lookup k rest

/-- `d[k] = v` on an insertion-ordered dict: replace the first binding of `k`
in place, or append a fresh binding at the end. -/
def setKey (k : String) (v : Val) : Table → Table
  | [] => [(k, v)]
  | (k', v') :: rest =>
    if k' = k then (k, v) :: rest else (k', v') :: setKey k v rest

/-- `del d[k]` / `table.pop(k)` / `table.remove(k)`: drop the first binding. -/
def removeKey (k : String) : Table → Table
  | [] => []
  | (k', v') :: rest => if k' = k then rest else (k', v') :: removeKey k rest

/-- The keys of a table, in order. -/
def keys (d : Table) : List String := d.map Prod.fst

/-- Python truthiness of a value (`if data:`): empty collections, empty
strings, zero, `False` and `None` are falsy. -/
def pyTruthy : Val → Bool
  | .vNone => false
  | .str s => !(s = "")
  | .int n => !(n = 0)
  | .bool b => b
  | .arr vs => !vs.isEmpty
  | .table kvs => !kvs.isEmpty

/-! ## `utils.mapping_prune`

`mapping_prune` (`utils.py:284-335`) walks a nested structure.  Its helper
`_is_empty` holds for `None` and for empty collections; `_prune` deletes, at
each collection, the entries that are empty *at the time they are visited* and
otherwise recurses.  Note the order in the source: the emptiness test is made
*before* the recursive call, so a child that only becomes empty through the
recursion is not deleted by the same pass. -/

/-- `_is_collection(value)` of `mapping_prune`: lists, sets, tuples and
mappings (arrays stand for the sequence types here). -/
def isCollection : Val → Bool
  | .arr _ => true
  | .table _ => true
  | _ => false

/-- `_is_empty(value)` of `mapping_prune`: `None`, or an empty collection. -/
def isEmptyVal : Val → Bool
  | .vNone => true
  | .arr vs => vs.isEmpty
  | .table kvs => kvs.isEmpty
  | _ => false

mutual
/-- The value left in place by `_prune` of `utils.mapping_prune`
(the source mutates in place; this returns the resulting content). -/
def pruneVal : Val → Val
  | .arr vs => .arr (pruneArr vs)
  | .table kvs => .table (pruneTable kvs)
  | v => v

/-- `_prune` over a list: entries empty when visited are deleted,
the others are pruned recursively and kept. -/
def pruneArr : List Val → List Val
  | [] => []
  | v :: vs => if isEmptyVal v then pruneArr vs else pruneVal v :: pruneArr vs

/-- `_prune` over a mapping: same policy, key by key in order. -/
def pruneTable : Table → Table
  | [] => []
  | (k, v) :: kvs =>
    if isEmptyVal v then pruneTable kvs else (k, pruneVal v) :: pruneTable kvs
end

/-- `utils.mapping_prune` applied to a document (a mapping). -/
def mapping_prune (d : Table) : Table := pruneTable d

/-! ## `utils.mapping_set`

`mapping_set` (`utils.py:206-243`) walks a key path, replacing non-mapping
intermediates by fresh dicts, and at the last key compares the stored object
with the assigned one using Python `is` (object identity, *not* `==`).
Object identity is not expressible on pure values, so the embedding takes the
identity relation on the final pair as a parameter `ident`: `ident a b = true`
only if `a` and `b` are contents of the *same* Python object (hence equal as
values); two merely equal objects may well have `ident a b = false`.  The
singletons `None`, `True` and `False` are identical exactly when equal, which
`pyIs` hard-codes. -/

/-- Python `a is b` on the modelled contents: decided for the singleton
values, deferred to the `ident` oracle otherwise. -/
def pyIs (ident : Val → Val → Bool) (a b : Val) : Bool :=
  match a, b with
  | .vNone, .vNone => true
  | .vNone, _ => false
  | _, .vNone => false
  | .bool x, .bool y => x = y
  | a, b => ident a b

/-- `utils.mapping_set`: returns the resulting content and the reported
"was modified" flag.  (When an intermediate key holds a non-mapping value the
source replaces it by `{}` before descending, even if the final identity test
then reports "unchanged".) -/
def mapping_set (ident : Val → Val → Bool) : Table → List String → Val → Table × Bool
  | d, [], _ => (d, false)
  | d, [k], v =>
    let w := (lookup k d).getD .vNone
    if pyIs ident w v then (d, false) else (setKey k v d, true)
  | d, k :: k2 :: rest, v =>
    match lookup k d with
    | some (.table t) =>
      let r := mapping_set ident t (k2 :: rest) v
      (setKey k (.table r.1) d, r.2)
    | _ =>
      let r := mapping_set ident [] (k2 :: rest) v
      (setKey k (.table r.1) d, r.2)

/-! ## `mergedeep.merge` (used by `workspace_sync.sync_member_project_tool`)

Default strategy (REPLACE): for each key of the source, if the key is present
in the destination and both values are mappings, merge recursively; otherwise
assign the source value. -/

mutual
def mergeTable : Table → Table → Table
  | d, [] => d
  | d, (k, v) :: rest => mergeTable (mergeEntry d k v) rest
termination_by _ s => sizeOf s
decreasing_by all_goals (simp_wf; try omega)

/-- One key of the source: if the key is present in the destination and both
values are mappings, merge recursively; otherwise assign the source value. -/
def mergeEntry (d : Table) (k : String) (v : Val) : Table :=
  match lookup k d, v with
  | some (.table dk), .table sk => setKey k (.table (mergeTable dk sk)) d
  | _, _ => setKey k v d
termination_by sizeOf v
decreasing_by all_goals (simp_wf; try omega)
end

/-! ## `workspace_sync._parse_dependency_name`

`re.match(r"^\s*([\w\-\.\[\]]+)\s*@\s*file://", dep)`.  The character class
of the group is disjoint from whitespace and from `@`, so the regex (greedy
with backtracking) is equivalent to: skip whitespace, take the maximal run of
name characters (non-empty), skip whitespace, require `@`, skip whitespace,
require the literal `file://`. -/

/-- Python `\s` (ASCII range). -/
def isWsChar (c : Char) : Bool :=
  c = ' ' || c = '\t' || c = '\n' || c = '\r' || c = '\x0b' || c = '\x0c'

/-- The regex character class `[\w\-\.\[\]]`. -/
def isNameChar (c : Char) : Bool :=
  c.isAlphanum || c = '_' || c = '-' || c = '.' || c = '[' || c = ']'

/-- `\s*`: drop leading whitespace. -/
def dropWs : List Char → List Char
  | [] => []
  | c :: cs => if isWsChar c then dropWs cs else c :: cs

/-- `[\w\-\.\[\]]+` (maximal munch): the name run and the remainder. -/
def takeName : List Char → List Char × List Char
  | [] => ([], [])
  | c :: cs =>
    if isNameChar c then
      let r := takeName cs
      (c :: r.1, r.2)
    else ([], c :: cs)

/-- The regex match: `some name` if the string starts (after whitespace) with
`name @ file://`, else `none`. -/
def parseFileRef (s : String) : Option String :=
  if (takeName (dropWs s.data)).1.isEmpty then none
  else
    match dropWs (takeName (dropWs s.data)).2 with
    | '@' :: r2 =>
      if "file://".data.isPrefixOf (dropWs r2) then
        some (String.mk (takeName (dropWs s.data)).1)
      else none
    | _ => none

/-- `workspace_sync._parse_dependency_name`: the matched group, or the whole
dependency string when the regex does not match. -/
def parse_dependency_name (dep : String) : String :=
  (parseFileRef dep).getD dep

/-! ## Paths and `workspace_sync._member_dependency`

Project directories are modelled as lists of components of the absolute,
normalized path (`Path.resolve(strict=False)` output).  `os.path.relpath`
on two such paths strips the common prefix and climbs with `..`. -/

/-- Length of the common prefix of two component lists. -/
def commonLen : List String → List String → Nat
  | a :: as, b :: bs => if a = b then commonLen as bs + 1 else 0
  | _, _ => 0

/-- The component list of `os.path.relpath(path, start)` for absolute
normalized paths: climb out of the non-common part of `start`, then descend
into the non-common part of `path`. -/
def relpathParts (path start : List String) : List String :=
  let n := commonLen path start
  List.replicate (start.length - n) ".." ++ path.drop n

/-- `os.path.relpath(path, start)` for absolute normalized paths. -/
def relpath (path start : List String) : String :=
  let parts := relpathParts path start
  if parts.isEmpty then "." else String.intercalate "/" parts

/-- `workspace_sync._member_dependency`: format a recognized member
dependency as `<name> @ file://$\x7bPROJECT_ROOT\x7d/<relpath>`, the relative
path being computed from the depending member's own directory to the
dependency's directory.  The placeholder is emitted literally. -/
def memberDependency (memberDir : List String) (dep : String) (depDir : List String) : String :=
  dep ++ " @ file://$" ++ "\x7bPROJECT_ROOT\x7d/" ++ relpath depDir memberDir

/-! ## The workspace tree (`pyproject.PyProjectTree`) and the four
synchronization operations of `workspace_sync.py`.

`pyproject.tree()` is derived from the (external) `uv` workspace metadata:
a root name, the root project and the ordered member map.  Only names and
directories of the tree are consulted for dependency lookups, so the
re-discovery inside `_sync_member_project_dependencies` returns the same
topology; documents are carried per project. -/

structure Proj where
  dir : List String
  doc : Table

structure Tree where
  name : String
  root : Proj
  members : List (String × Proj)

/-- Ordered member lookup (`dict.get`). -/
def lookupMember (k : String) : List (String × Proj) → Option Proj
  | [] => none
  | (k', p) :: rest => if k' = k then some p else lookupMember k rest

/-- Resolve a parsed dependency name against the tree: the root when it
matches the tree name, else a member (`_sync_member_project_dependencies`
lines 218-222). -/
def findProj (t : Tree) (dep : String) : Option Proj :=
  if dep = t.name then some t.root else lookupMember dep t.members

/-- Python `current_version == version` where `version` is a `str`:
equality holds only against an equal string. -/
def pyEqStr : Option Val → String → Bool
  | some (.str s), t => s = t
  | _, _ => false

/-- Body of `workspace_sync.sync_version` for one project: if the document
has a `project` table, set `project.version` unless it already equals the
computed version; also return the emitted change record (the previous value)
when an assignment was made.  (A non-mapping `project` value makes the source
raise; well-formedness below excludes it.) -/
def sync_version_doc (version : String) (d : Table) : Table × Option (Option Val) :=
  match lookup "project" d with
  | some (.table p) =>
    let current := lookup "version" p
    if pyEqStr current version then (d, none)
    else (setKey "project" (.table (setKey "version" (.str version) p)) d, some current)
  | some _ => (d, none)
  | none => (d, none)

/-- `workspace_sync.sync_version` over `tree.projects() = [root, *members]`
with an explicitly provided version string (when `None` the source computes
one from git once and then reuses it; the derived string is an input here). -/
def sync_version (version : String) (t : Tree) : Tree :=
  { t with
    root := { t.root with doc := (sync_version_doc version t.root.doc).1 }
    members := t.members.map fun m =>
      (m.1, { m.2 with doc := (sync_version_doc version m.2.doc).1 }) }

/-- `workspace_sync.sync_build_system`: copy the root's `build-system` table
(deep copy — content equal) onto every member, when truthy. -/
def sync_build_system (t : Tree) : Tree :=
  let data := (lookup "build-system" t.root.doc).getD (.table [])
  if pyTruthy data then
    { t with
      members := t.members.map fun m =>
        (m.1, { m.2 with doc := setKey "build-system" data m.2.doc }) }
  else t

/-- `root.data.get("tool", {}).get("member-project", {})`.  (A non-mapping
`tool` value makes the source raise; well-formedness excludes it.) -/
def memberProjectData (rootDoc : Table) : Val :=
  match lookup "tool" rootDoc with
  | some (.table tl) => (lookup "member-project" tl).getD (.table [])
  | some _ => .table []
  | none => .table []

/-- `workspace_sync.sync_member_project_tool`: deep-merge the root's
`tool.member-project` table into every member document (at top level), when
truthy.  (A truthy non-mapping value makes the source raise.) -/
def sync_member_project_tool (t : Tree) : Tree :=
  let mp := memberProjectData t.root.doc
  if pyTruthy mp then
    match mp with
    | .table mpt =>
      { t with
        members := t.members.map fun m =>
          (m.1, { m.2 with doc := mergeTable m.2.doc mpt }) }
    | _ => t
  else t

/-- One dependency entry of the loop in `_sync_member_project_dependencies`:
parse the name; if it resolves to a project of the tree, rewrite the entry
and report the name as a member dependency. -/
def rewriteDep (t : Tree) (selfDir : List String) (dep : String) : String × Option String :=
  let name := parse_dependency_name dep
  match findProj t name with
  | some depProj => (memberDependency selfDir name depProj.dir, some name)
  | none => (dep, none)

/-- The dependency loop: rewritten entries plus the collected member
dependency names, in order.  (Non-string entries make the source raise in
`re.match`; well-formedness excludes them.) -/
def rewriteDeps (t : Tree) (selfDir : List String) : List Val → List Val × List String
  | [] => ([], [])
  | v :: rest =>
    let tail := rewriteDeps t selfDir rest
    match v with
    | .str dep =>
      match rewriteDep t selfDir dep with
      | (dep', some n) => (.str dep' :: tail.1, n :: tail.2)
      | (dep', none) => (.str dep' :: tail.1, tail.2)
    | other => (other :: tail.1, tail.2)

/-- `source_table.get(dep, {}).get("workspace", None) is True`: the entry is
a table whose `workspace` key holds the boolean `True`.  (`True` is a
singleton, so `is True` is equality with the boolean; a non-mapping entry
makes the source raise — well-formedness requires table entries.) -/
def wsTrue (v : Val) : Bool :=
  match v with
  | .table kvs =>
    match lookup "workspace" kvs with
    | some (.bool true) => true
    | _ => false
  | _ => false

/-- The `tool.uv.sources` reconciliation of
`_sync_member_project_dependencies` (lines 227-243): drop every entry whose
`workspace` flag is `True` and whose name is no longer a member dependency
(key iteration order preserved, keys being unique), then
`update({dep: {"workspace": True}})` for every member dependency — replacing
an existing entry in place, appending a new one. -/
def applySources (memberDeps : List String) (tbl : Table) : Table :=
  let tbl1 := tbl.filter fun kv => !(wsTrue kv.2 && !memberDeps.contains kv.1)
  memberDeps.foldl (fun acc d => setKey d (.table [("workspace", .bool true)]) acc) tbl1

/-- `proj.table("tool", "uv", "sources", create=...)` fused with the
reconciliation above and the closing `TableNode.prune()` walk.

`PyProject.table` (pyproject.py:131-151) walks the keys; a present table is
entered; with `create` an absent key gets a fresh table attached at the end,
while a present non-table value is *removed and the fresh table is never
attached* (the `add` only happens in the `else` branch), so everything below
happens on a detached table and only the removal is observable; without
`create` the walk returns `None` (no mutation, and then no reconciliation and
no prune).  `TableNode.prune` removes, bottom-up along the walked chain, each
table that is empty after its child was handled.  `none` here models the
`None` return. -/
def sourcesWalk (create : Bool) (memberDeps : List String) : Table → List String → Option Table
  | tbl, [] => some (applySources memberDeps tbl)
  | tbl, k :: rest =>
    match lookup k tbl with
    | some (.table sub) =>
      match sourcesWalk create memberDeps sub rest with
      | some sub' =>
        some (if sub'.isEmpty then removeKey k tbl else setKey k (.table sub') tbl)
      | none => none
    | some _ => if create then some (removeKey k tbl) else none
    | none =>
      if create then
        match sourcesWalk create memberDeps [] rest with
        | some sub' => some (if sub'.isEmpty then tbl else setKey k (.table sub') tbl)
        | none => none
      else none

/-- `_sync_member_project_dependencies` for one project document:
rewrite the declared dependency list (when `project.dependencies` is a
non-empty list), then reconcile `tool.uv.sources` with
`create = bool(member_dependencies)`.  (A non-mapping `project` or a truthy
non-list `dependencies` value makes the source raise; well-formedness
excludes them.) -/
def sync_member_project_dependencies_doc (t : Tree) (selfDir : List String)
    (d : Table) : Table :=
  let step : Table × List String :=
    match lookup "project" d with
    | some (.table p) =>
      match lookup "dependencies" p with
      | some (.arr deps) =>
        if deps.isEmpty then (d, [])
        else
          let r := rewriteDeps t selfDir deps
          (setKey "project" (.table (setKey "dependencies" (.arr r.1) p)) d, r.2)
      | _ => (d, [])
    | _ => (d, [])
  match sourcesWalk (!step.2.isEmpty) step.2 step.1 ["tool", "uv", "sources"] with
  | some d2 => d2
  | none => step.1

/-- `workspace_sync.sync_member_project_dependencies` over
`tree.projects()`: each project's document is reconciled against the (static)
topology; no project reads another project's document. -/
def sync_member_project_dependencies (t : Tree) : Tree :=
  { t with
    root := { t.root with doc := sync_member_project_dependencies_doc t t.root.dir t.root.doc }
    members := t.members.map fun m =>
      (m.1, { m.2 with doc := sync_member_project_dependencies_doc t m.2.dir m.2.doc }) }

/-- The orchestrator `workspace_sync.sync` with every operation enabled and
no member filter: version, build-system, tool, dependencies, in the declared
order; afterwards each document is persisted only if its serialized content
differs, so "zero writes on the second run" is exactly "the tree of documents
is unchanged by a second `runAll`". -/
def runAll (version : String) (t : Tree) : Tree :=
  sync_member_project_dependencies
    (sync_member_project_tool (sync_build_system (sync_version version t)))

/-! ## Manifest loading (`projects.py`, `pyproject.py`)

The filesystem at one path is `Option String` (the file's text, or absence);
the TOML parser (`tomlkit`, an external library) is a parameter
`parse : String → Except Nat Table`, the `Nat` being an opaque parse-error
cause carrying no file path. -/

/-- The errors the three loaders can surface. -/
inductive LoadErr where
  | parseErr (cause : Nat)
  | fileNotFound
  | projectError (path : List String) (cause : Nat)
  | dirNotFound

/-- `projects.PyProject.reload` for a file source (lines 186-216): an absent
file yields an empty document; an existing file is parsed, a `tomlkit` parse
failure propagating unwrapped (no file path attached). -/
def pyProjectReload (parse : String → Except Nat Table) (fs : Option String) :
    Except LoadErr Table :=
  match fs with
  | none => .ok []
  | some text =>
    match parse text with
    | .ok d => .ok d
    | .error c => .error (.parseErr c)

/-- `pyproject.PyProject.data` (lines 81-90): `self.path.open("rb")` —
an absent file raises `FileNotFoundError`; parse failures propagate
unwrapped. -/
def pyProjectData (parse : String → Except Nat Table) (fs : Option String) :
    Except LoadErr Table :=
  match fs with
  | none => .error .fileNotFound
  | some text =>
    match parse text with
    | .ok d => .ok d
    | .error c => .error (.parseErr c)

/-- Python `str.rstrip()` (whitespace). -/
def rstripText (s : String) : String :=
  .mk ((s.data.reverse.dropWhile fun c => isWsChar c).reverse)

/-- `projects.Project.__init__` (lines 337-365): when no `pyproject.toml`
exists, `dir()` resolves nothing and a "Project dir not found" error is
raised; otherwise the text is right-stripped, given a trailing newline, and
parsed; any parse failure is re-raised as a `ValueError` carrying the file
path and the underlying cause. -/
def projectInit (parse : String → Except Nat Table) (path : List String)
    (fs : Option String) : Except LoadErr Table :=
  match fs with
  | none => .error .dirNotFound
  | some text =>
    let adjusted := if rstripText text = "" then rstripText text else rstripText text ++ "\n"
    match parse adjusted with
    | .ok d => .ok d
    | .error c => .error (.projectError path c)

/-! ## Association-list lemmas -/

theorem lookup_setKey_self (k : String) (v : Val) (d : Table) :
    lookup k (setKey k v d) = some v := by
  induction d with
  | nil => simp [setKey, lookup]
  | cons hd tl ih =>
    obtain ⟨k', v'⟩ := hd
    by_cases h : k' = k <;> simp [setKey, lookup, h, ih]

theorem lookup_setKey_ne (k' k : String) (v : Val) (d : Table) (h : k' ≠ k) :
    lookup k' (setKey k v d) = lookup k' d := by
  induction d with
  | nil => simp [setKey, lookup, Ne.symm h]
  | cons hd tl ih =>
    obtain ⟨k0, v0⟩ := hd
    by_cases h0 : k0 = k
    · subst h0
      have h2 : ¬k0 = k' := fun hh => h hh.symm
      simp [setKey, lookup, h2]
    · by_cases h1 : k0 = k' <;> simp [setKey, lookup, h0, h1, h, ih]

theorem setKey_same (k : String) (v : Val) (d : Table)
    (h : lookup k d = some v) : setKey k v d = d := by
  induction d with
  | nil => simp [lookup] at h
  | cons hd tl ih =>
    obtain ⟨k0, v0⟩ := hd
    by_cases h0 : k0 = k
    · subst h0
      simp [lookup] at h
      simp [setKey, h]
    · simp [lookup, h0] at h
      simp [setKey, h0, ih h]

theorem setKey_setKey (k : String) (v w : Val) (d : Table) :
    setKey k v (setKey k w d) = setKey k v d := by
  induction d with
  | nil => simp [setKey]
  | cons hd tl ih =>
    obtain ⟨k0, v0⟩ := hd
    by_cases h0 : k0 = k <;> simp [setKey, h0, ih]

/-! ## Properties of `mapping_prune` -/

/-- Is the value Python `None`? -/
def isNone : Val → Bool
  | .vNone => true
  | _ => false

mutual
/-- No `None` occurs as a table entry or array element anywhere inside. -/
def noneFree : Val → Bool
  | .arr vs => noneFreeArr vs
  | .table kvs => noneFreeTable kvs
  | _ => true

def noneFreeArr : List Val → Bool
  | [] => true
  | v :: vs => !isNone v && noneFree v && noneFreeArr vs

def noneFreeTable : Table → Bool
  | [] => true
  | (_, v) :: kvs => !isNone v && noneFree v && noneFreeTable kvs
end

/-- Scalars are the non-collection values. -/
def isScalar (v : Val) : Bool := !isCollection v

theorem pruneVal_scalar (v : Val) (h : isScalar v = true) : pruneVal v = v := by
  cases v <;> simp [isScalar, isCollection] at h <;> rfl

theorem isEmptyVal_scalar (v : Val) (h1 : isScalar v = true) (h2 : v ≠ .vNone) :
    isEmptyVal v = false := by
  cases v <;> first
    | rfl
    | exact absurd rfl h2
    | simp [isScalar, isCollection] at h1

theorem isNone_pruneVal (v : Val) (h : isEmptyVal v = false) :
    isNone (pruneVal v) = false := by
  cases v <;> simp [isEmptyVal] at h <;> rfl

mutual
theorem noneFree_pruneVal (v : Val) : noneFree (pruneVal v) = true := by
  match v with
  | .vNone | .str _ | .int _ | .bool _ => rfl
  | .arr vs =>
    have := noneFreeArr_pruneArr vs
    simpa [pruneVal, noneFree] using this
  | .table kvs =>
    have := noneFreeTable_pruneTable kvs
    simpa [pruneVal, noneFree] using this

theorem noneFreeArr_pruneArr (vs : List Val) : noneFreeArr (pruneArr vs) = true := by
  match vs with
  | [] => rfl
  | v :: rest =>
    by_cases h : isEmptyVal v = true
    · simpa [pruneArr, h] using noneFreeArr_pruneArr rest
    · have h' : isEmptyVal v = false := by simpa using h
      simp [pruneArr, h', noneFreeArr, isNone_pruneVal v h', noneFree_pruneVal v,
        noneFreeArr_pruneArr rest]

theorem noneFreeTable_pruneTable (kvs : Table) : noneFreeTable (pruneTable kvs) = true := by
  match kvs with
  | [] => rfl
  | (k, v) :: rest =>
    by_cases h : isEmptyVal v = true
    · simpa [pruneTable, h] using noneFreeTable_pruneTable rest
    · have h' : isEmptyVal v = false := by simpa using h
      simp [pruneTable, h', noneFreeTable, isNone_pruneVal v h', noneFree_pruneVal v,
        noneFreeTable_pruneTable rest]
end

theorem pruneTable_keeps_scalar (kvs : Table) (k : String) (v : Val)
    (hmem : (k, v) ∈ kvs) (hs : isScalar v = true) (hn : v ≠ .vNone) :
    (k, v) ∈ pruneTable kvs := by
  induction kvs with
  | nil => cases hmem
  | cons hd tl ih =>
    obtain ⟨k0, v0⟩ := hd
    rcases List.mem_cons.1 hmem with heq | htl
    · obtain ⟨hk, hv⟩ := Prod.mk.injEq .. ▸ heq
      subst hk; subst hv
      simp [pruneTable, isEmptyVal_scalar v hs hn, pruneVal_scalar v hs]
    · by_cases h : isEmptyVal v0 = true
      · simpa [pruneTable, h] using ih htl
      · have h' : isEmptyVal v0 = false := by simpa using h
        simp [pruneTable, h']
        exact Or.inr (ih htl)

theorem pruneArr_keeps_scalar (vs : List Val) (v : Val)
    (hmem : v ∈ vs) (hs : isScalar v = true) (hn : v ≠ .vNone) :
    v ∈ pruneArr vs := by
  induction vs with
  | nil => cases hmem
  | cons hd tl ih =>
    rcases List.mem_cons.1 hmem with heq | htl
    · subst heq
      simp [pruneArr, isEmptyVal_scalar v hs hn, pruneVal_scalar v hs]
    · by_cases h : isEmptyVal hd = true
      · simpa [pruneArr, h] using ih htl
      · have h' : isEmptyVal hd = false := by simpa using h
        simp [pruneArr, h']
        exact Or.inr (ih htl)

/-- C2: the spec and the function's own docstring require a table whose
children become empty during the same pass to be removed bottom-up in one
traversal, making one `prune` call a fixed point.  The code tests emptiness
*before* recursing (`utils.py:318-323`), so on `{"a": {"b": {}}}` the first
call only removes `b` and leaves `{"a": {}}`; a second call removes `a`.
This theorem evaluates the code at that failing input: the second pass still
changes the document, so `prune(prune(D)) ≠ prune(D)`. -/
theorem mapping_prune_second_pass_differs :
    mapping_prune [("a", Val.table [("b", Val.table [])])] = [("a", Val.table [])] ∧
      mapping_prune (mapping_prune [("a", Val.table [("b", Val.table [])])]) = [] :=
  ⟨rfl, rfl⟩

/-- C9: one `mapping_prune` pass deletes every `None` entry, in tables and in
arrays, at every depth (the result is `None`-free), while scalar values other
than `None` — including empty strings — are never removed. -/
theorem mapping_prune_removes_none_keeps_scalars :
    (∀ d : Table, noneFreeTable (mapping_prune d) = true) ∧
      (∀ (kvs : Table) (k : String) (v : Val), (k, v) ∈ kvs → isScalar v = true →
        v ≠ Val.vNone → (k, v) ∈ mapping_prune kvs) ∧
      (∀ (vs : List Val) (v : Val), v ∈ vs → isScalar v = true → v ≠ Val.vNone →
        v ∈ pruneArr vs) :=
  ⟨noneFreeTable_pruneTable, pruneTable_keeps_scalar, pruneArr_keeps_scalar⟩

/-- Witness for C9 at a concrete document: `{"a": None, "b": ""}` prunes to a
`None`-free table that still holds the empty-string scalar, and a `None`
inside an array is dropped while the empty string survives. -/
theorem mapping_prune_removes_none_keeps_scalars_witness :
    noneFreeTable (mapping_prune [("a", Val.vNone), ("b", Val.str "")]) = true ∧
      ("b", Val.str "") ∈ mapping_prune [("a", Val.vNone), ("b", Val.str "")] ∧
      Val.str "" ∈ pruneArr [Val.vNone, Val.str ""] :=
  ⟨mapping_prune_removes_none_keeps_scalars.1 _,
    mapping_prune_removes_none_keeps_scalars.2.1 _ "b" (Val.str "")
      (List.mem_cons_of_mem _ (List.mem_cons_self _ _)) rfl (fun h => Val.noConfusion h),
    mapping_prune_removes_none_keeps_scalars.2.2 _ (Val.str "")
      (List.mem_cons_of_mem _ (List.mem_cons_self _ _)) rfl (fun h => Val.noConfusion h)⟩

/-! ## Properties of `mapping_set` -/

/-- Nested lookup through a chain of tables (used to state where a value is
"already stored at the path"). -/
def lookupPath : Table → List String → Option Val
  | _, [] => none
  | d, [k] => lookup k d
  | d, k :: k2 :: rest =>
    match lookup k d with
    | some (.table t) => lookupPath t (k2 :: rest)
    | _ => none

theorem mapping_set_is_noop (ident : Val → Val → Bool) (d : Table)
    (p : List String) (v w : Val) (hw : lookupPath d p = some w)
    (hid : pyIs ident w v = true) : mapping_set ident d p v = (d, false) := by
  induction p generalizing d with
  | nil => simp [lookupPath] at hw
  | cons k rest ih =>
    cases rest with
    | nil =>
      simp only [lookupPath] at hw
      simp [mapping_set, hw, hid]
    | cons k2 rest2 =>
      simp only [lookupPath] at hw
      cases hl : lookup k d with
      | none => rw [hl] at hw; cases hw
      | some t0 =>
        rw [hl] at hw
        cases t0 with
        | table t =>
          have := ih t hw
          simp [mapping_set, hl, this, setKey_same k (.table t) d hl]
        | vNone => cases hw
        | str s => cases hw
        | int n => cases hw
        | bool b => cases hw
        | arr a => cases hw

theorem mapping_set_establishes (ident : Val → Val → Bool) (d : Table)
    (p : List String) (v : Val) (hp : p ≠ [])
    (hc : (mapping_set ident d p v).2 = true) :
    lookupPath (mapping_set ident d p v).1 p = some v := by
  induction p generalizing d with
  | nil => exact absurd rfl hp
  | cons k rest ih =>
    cases rest with
    | nil =>
      simp only [mapping_set] at hc ⊢
      split at hc
      · cases hc
      · simp_all [lookupPath, lookup_setKey_self]
    | cons k2 rest2 =>
      simp only [mapping_set] at hc ⊢
      cases hl : lookup k d with
      | some t0 =>
        rw [hl] at hc
        cases t0 <;> simp only [lookupPath, lookup_setKey_self] <;>
          exact ih _ (List.cons_ne_nil _ _) hc
      | none =>
        rw [hl] at hc
        simp only [lookupPath, lookup_setKey_self]
        exact ih [] (List.cons_ne_nil _ _) hc

theorem mapping_set_equal_not_identical (ident : Val → Val → Bool) (d : Table)
    (p : List String) (v : Val) (hv : lookupPath d p = some v)
    (hid : pyIs ident v v = false) : mapping_set ident d p v = (d, true) := by
  induction p generalizing d with
  | nil => simp [lookupPath] at hv
  | cons k rest ih =>
    cases rest with
    | nil =>
      simp only [lookupPath] at hv
      simp [mapping_set, hv, hid, setKey_same k v d hv]
    | cons k2 rest2 =>
      simp only [lookupPath] at hv
      cases hl : lookup k d with
      | none => rw [hl] at hv; cases hv
      | some t0 =>
        cases t0 with
        | table t =>
          rw [hl] at hv
          have := ih t hv
          simp [mapping_set, hl, this, setKey_same k (.table t) d hl]
        | vNone => rw [hl] at hv; cases hv
        | str s => rw [hl] at hv; cases hv
        | int n => rw [hl] at hv; cases hv
        | bool b => rw [hl] at hv; cases hv
        | arr a => rw [hl] at hv; cases hv

/-- C6 (counterexample): `mapping_set` detects "no change" with Python `is`
(object identity, `utils.py:233`), not `==`.  Strings parsed from two
manifest reads (or any non-interned objects) are equal yet distinct, i.e.
their identity relation is `false`; assigning such an equal-but-distinct
`"x"` over a stored `"x"` is reported as a change (`True`), where the claim
requires `False`.  (The resulting content is the unchanged table.) -/
theorem mapping_set_equal_value_reports_change :
    mapping_set (fun _ _ => false) [("a", Val.str "x")] ["a"] (Val.str "x") =
      ([("a", Val.str "x")], true) := rfl

/-- C6 (amended): `mapping_set` creates intermediate tables as needed and
returns whether it assigned, detecting "no change" by an *object-identity*
check: (1) assigning the very object stored at the path returns `false` and
leaves the document unmodified; (2) when it returns `true` the value is
afterwards stored at the path (intermediate tables created as needed);
(3) assigning an equal but non-identical object returns `true` and
re-assigns, the resulting content being unchanged. -/
theorem mapping_set_identity_semantics :
    (∀ (ident : Val → Val → Bool) (d : Table) (p : List String) (v w : Val),
        lookupPath d p = some w → pyIs ident w v = true →
        mapping_set ident d p v = (d, false)) ∧
      (∀ (ident : Val → Val → Bool) (d : Table) (p : List String) (v : Val),
        p ≠ [] → (mapping_set ident d p v).2 = true →
        lookupPath (mapping_set ident d p v).1 p = some v) ∧
      (∀ (ident : Val → Val → Bool) (d : Table) (p : List String) (v : Val),
        lookupPath d p = some v → pyIs ident v v = false →
        mapping_set ident d p v = (d, true)) :=
  ⟨mapping_set_is_noop, mapping_set_establishes, mapping_set_equal_not_identical⟩

/-- Witness for C6 at concrete inputs: the identical stored object is a
no-op returning `false`; a set through a missing two-level path returns
`true` and stores the value; an equal-but-distinct object returns `true`
with unchanged content. -/
theorem mapping_set_identity_semantics_witness :
    mapping_set (fun _ _ => true) [("a", Val.str "x")] ["a"] (Val.str "x") =
        ([("a", Val.str "x")], false) ∧
      lookupPath (mapping_set (fun _ _ => false) [] ["a", "b"] (Val.int 1)).1 ["a", "b"] =
        some (Val.int 1) ∧
      mapping_set (fun _ _ => false) [("a", Val.str "x")] ["a"] (Val.str "x") =
        ([("a", Val.str "x")], true) :=
  ⟨mapping_set_identity_semantics.1 _ _ _ _ _ rfl rfl,
    mapping_set_identity_semantics.2.1 _ [] ["a", "b"] (Val.int 1)
      (List.cons_ne_nil _ _) rfl,
    mapping_set_identity_semantics.2.2 _ _ _ _ rfl rfl⟩

/-! ## Relative-path navigation: the emitted component list really leads from
the member's directory to the dependency's directory. -/

/-- Interpret a relative component list from a starting directory: `..` pops
the last component, anything else descends. -/
def applyRelParts (start : List String) (parts : List String) : List String :=
  parts.foldl (fun acc comp => if comp = ".." then acc.dropLast else acc ++ [comp]) start

theorem commonLen_append (c p q : List String) :
    commonLen (c ++ p) (c ++ q) = c.length + commonLen p q := by
  induction c with
  | nil => simp [commonLen]
  | cons a as ih => simp [commonLen, ih]; omega

theorem foldl_replicate_dropLast (c q : List String) :
    List.foldl (fun acc comp => if comp = ".." then acc.dropLast else acc ++ [comp])
      (c ++ q) (List.replicate q.length "..") = c := by
  induction q using List.reverseRecOn generalizing c with
  | nil => simp
  | append_singleton qs a ih =>
    have hlen : (qs ++ [a]).length = qs.length + 1 := by simp
    rw [hlen, List.replicate_succ]
    simp only [List.foldl_cons, if_pos rfl]
    have : (c ++ (qs ++ [a])).dropLast = c ++ qs := by
      rw [← List.append_assoc]
      simp
    rw [this]
    exact ih c

theorem foldl_descend (c p : List String) (hp : ∀ x ∈ p, x ≠ "..") :
    List.foldl (fun acc comp => if comp = ".." then acc.dropLast else acc ++ [comp]) c p =
      c ++ p := by
  induction p generalizing c with
  | nil => simp
  | cons a as ih =>
    have ha : a ≠ ".." := hp a (List.mem_cons_self _ _)
    simp only [List.foldl_cons, if_neg ha]
    rw [ih (c ++ [a]) (fun x hx => hp x (List.mem_cons_of_mem _ hx))]
    simp

theorem applyRelParts_relpathParts (c p q : List String) (hpq : commonLen p q = 0)
    (hp : ∀ x ∈ p, x ≠ "..") :
    applyRelParts (c ++ q) (relpathParts (c ++ p) (c ++ q)) = c ++ p := by
  simp only [applyRelParts, relpathParts, commonLen_append, hpq, Nat.add_zero]
  have hdrop : (c ++ p).drop c.length = p := List.drop_left c p
  have hlen : (c ++ q).length - c.length = q.length := by simp
  rw [hdrop, hlen, List.foldl_append, foldl_replicate_dropLast, foldl_descend c p hp]

/-! ## Lemmas about the dependency-name parser -/

theorem nameChar_not_ws (c : Char) (h : isNameChar c = true) : isWsChar c = false := by
  by_contra hc
  have hc' : isWsChar c = true := by simpa using hc
  have hc2 : c = ' ' ∨ c = '\t' ∨ c = '\n' ∨ c = '\x0d' ∨ c = '\x0b' ∨ c = '\x0c' := by
    simpa [isWsChar, Bool.or_eq_true, decide_eq_true_eq, or_assoc] using hc'
  rcases hc2 with h1 | h1 | h1 | h1 | h1 | h1 <;> subst h1 <;> exact absurd h (by decide)

theorem dropWs_cons_ws (c : Char) (cs : List Char) (h : isWsChar c = true) :
    dropWs (c :: cs) = dropWs cs := by simp [dropWs, h]

theorem dropWs_cons_notws (c : Char) (cs : List Char) (h : isWsChar c = false) :
    dropWs (c :: cs) = c :: cs := by simp [dropWs, h]

theorem takeName_stop_space (nm r0 : List Char) (hall : ∀ c ∈ nm, isNameChar c = true) :
    takeName (nm ++ ' ' :: r0) = (nm, ' ' :: r0) := by
  induction nm with
  | nil => simp [takeName, show isNameChar ' ' = false by decide]
  | cons c cs ih =>
    have hc := hall c (List.mem_cons_self _ _)
    simp [takeName, hc, ih fun x hx => hall x (List.mem_cons_of_mem _ hx)]

theorem parseFileRef_rewritten (n r : String) (hne : n.data ≠ [])
    (hall : ∀ c ∈ n.data, isNameChar c = true) :
    parseFileRef (n ++ " @ file://" ++ r) = some n := by
  obtain ⟨c0, cs0, hn⟩ : ∃ c0 cs0, n.data = c0 :: cs0 := by
    cases hcase : n.data with
    | nil => exact absurd hcase hne
    | cons a b => exact ⟨a, b, rfl⟩
  have hc0 : isNameChar c0 = true := hall c0 (by rw [hn]; exact List.mem_cons_self _ _)
  have hdata : (n ++ " @ file://" ++ r).data =
      n.data ++ ' ' :: '@' :: ' ' :: 'f' :: ("ile://".data ++ r.data) := by
    simp only [String.data_append, List.append_assoc]
    rfl
  have hdw : dropWs (n ++ " @ file://" ++ r).data =
      n.data ++ ' ' :: '@' :: ' ' :: 'f' :: ("ile://".data ++ r.data) := by
    rw [hdata, hn, List.cons_append, dropWs_cons_notws c0 _ (nameChar_not_ws c0 hc0),
      ← List.cons_append, ← hn]
  have htake : takeName (dropWs (n ++ " @ file://" ++ r).data) =
      (n.data, ' ' :: '@' :: ' ' :: 'f' :: ("ile://".data ++ r.data)) := by
    rw [hdw]; exact takeName_stop_space n.data _ hall
  have hemp : n.data.isEmpty = false := by rw [hn]; rfl
  unfold parseFileRef
  simp only [htake, hemp, Bool.false_eq_true, if_false]
  rw [dropWs_cons_ws ' ' _ (by decide), dropWs_cons_notws '@' _ (by decide)]
  simp only [dropWs_cons_ws ' ' _ (by decide), dropWs_cons_notws 'f' _ (by decide)]
  have hpre : "file://".data.isPrefixOf ('f' :: ("ile://".data ++ r.data)) = true :=
    List.isPrefixOf_iff_prefix.mpr ⟨r.data, rfl⟩
  simp only [hpre, if_true]

theorem takeName_decomp (cs : List Char) :
    (takeName cs).1 ++ (takeName cs).2 = cs ∧
      ∀ c ∈ (takeName cs).1, isNameChar c = true := by
  induction cs with
  | nil => simp [takeName]
  | cons c cs ih =>
    by_cases h : isNameChar c = true
    · refine ⟨?_, ?_⟩
      · simp [takeName, h, ih.1]
      · intro x hx
        simp only [takeName, h, if_true] at hx
        rcases List.mem_cons.1 hx with rfl | hx2
        · exact h
        · exact ih.2 x hx2
    · simp [takeName, h]

theorem dropWs_decomp (cs : List Char) :
    ∃ w, cs = w ++ dropWs cs ∧ ∀ c ∈ w, isWsChar c = true := by
  induction cs with
  | nil => exact ⟨[], rfl, by simp⟩
  | cons c cs ih =>
    by_cases h : isWsChar c = true
    · obtain ⟨w, hw, hwall⟩ := ih
      refine ⟨c :: w, ?_, ?_⟩
      · rw [dropWs_cons_ws c cs h, List.cons_append, ← hw]
      · intro x hx
        rcases List.mem_cons.1 hx with rfl | hx2
        · exact h
        · exact hwall x hx2
    · refine ⟨[], ?_, by simp⟩
      rw [dropWs_cons_notws c cs (by simpa using h), List.nil_append]

theorem parseFileRef_sound (s n : String) (h : parseFileRef s = some n) :
    ∃ w1 w2 w3 t, s.data = w1 ++ (n.data ++ (w2 ++ ('@' :: (w3 ++ ("file://".data ++ t))))) ∧
      n.data ≠ [] ∧ (∀ c ∈ n.data, isNameChar c = true) ∧
      (∀ c ∈ w1, isWsChar c = true) ∧ (∀ c ∈ w2, isWsChar c = true) ∧
      (∀ c ∈ w3, isWsChar c = true) := by
  unfold parseFileRef at h
  split at h
  · cases h
  next hemp =>
    split at h
    next r2 heq =>
      split at h
      next hpre =>
        have hn : n.data = (takeName (dropWs s.data)).1 := by
          have := Option.some.inj h
          rw [← this]
        obtain ⟨w1, hw1, hw1all⟩ := dropWs_decomp s.data
        obtain ⟨htn, htnall⟩ := takeName_decomp (dropWs s.data)
        obtain ⟨w2, hw2, hw2all⟩ := dropWs_decomp (takeName (dropWs s.data)).2
        obtain ⟨w3, hw3, hw3all⟩ := dropWs_decomp r2
        obtain ⟨t, ht⟩ := List.isPrefixOf_iff_prefix.mp hpre
        refine ⟨w1, w2, w3, t, ?_, ?_, ?_, hw1all, hw2all, hw3all⟩
        · rw [hw1, ← htn, hw2, heq, hw3, ← ht, hn]
        · rw [hn]
          intro hcon
          rw [hcon] at hemp
          exact hemp rfl
        · rw [hn]; exact htnall
      · cases h
    · cases h

theorem takeName_all (cs : List Char) (hall : ∀ c ∈ cs, isNameChar c = true) :
    takeName cs = (cs, []) := by
  induction cs with
  | nil => rfl
  | cons c cs ih =>
    have hc := hall c (List.mem_cons_self _ _)
    simp [takeName, hc, ih fun x hx => hall x (List.mem_cons_of_mem _ hx)]

/-- `parseFileRef` never matches a bare name (no `@ file://` present). -/
theorem parseFileRef_bare (s : String) (hall : ∀ c ∈ s.data, isNameChar c = true) :
    parseFileRef s = none := by
  unfold parseFileRef
  have hdw : dropWs s.data = s.data := by
    cases hcase : s.data with
    | nil => rfl
    | cons c cs =>
      exact dropWs_cons_notws c cs
        (nameChar_not_ws c (hall c (by rw [hcase]; exact List.mem_cons_self _ _)))
  rw [hdw, takeName_all s.data hall]
  cases hcase : s.data with
  | nil => rfl
  | cons c cs => rfl

theorem strAppend_assoc (a b c : String) : a ++ b ++ c = a ++ (b ++ c) :=
  congrArg String.mk (List.append_assoc a.data b.data c.data)

/-- A sample member document declaring a versioned dependency on `core`. -/
def sampleApiDoc : Table :=
  [("project", .table [("dependencies", .arr [.str "core>=1.0"])])]

/-- A sample topology: root `ws` at `/w`, members `core` and `api`. -/
def sampleTree : Tree where
  name := "ws"
  root := { dir := ["w"], doc := [] }
  members :=
    [("core", { dir := ["w", "core"], doc := [] }),
     ("api", { dir := ["w", "api"], doc := sampleApiDoc })]

/-- C10: the name parser returns either the whole dependency string, or — only
when the string has the shape `<name> @ file://...` with `<name>` drawn from
the regex character class — the name.  Hence a versioned declaration such as
`"core>=1.0"` parses to itself, is not a member name, and the entry is left
unrewritten with no `tool.uv.sources` override created (evaluated on a
workspace containing member `core`). -/
theorem dependency_name_recognition :
    (∀ s : String, parse_dependency_name s = s ∨
      ∃ w1 w2 w3 t, s.data =
          w1 ++ ((parse_dependency_name s).data ++
            (w2 ++ ('@' :: (w3 ++ ("file://".data ++ t))))) ∧
        (parse_dependency_name s).data ≠ [] ∧
        (∀ c ∈ (parse_dependency_name s).data, isNameChar c = true) ∧
        (∀ c ∈ w1, isWsChar c = true) ∧ (∀ c ∈ w2, isWsChar c = true) ∧
        (∀ c ∈ w3, isWsChar c = true)) ∧
      parse_dependency_name "core>=1.0" = "core>=1.0" ∧
      sync_member_project_dependencies_doc sampleTree ["w", "api"] sampleApiDoc =
        sampleApiDoc ∧
      lookup "tool" (sync_member_project_dependencies_doc sampleTree ["w", "api"]
        sampleApiDoc) = none := by
  refine ⟨?_, rfl, rfl, rfl⟩
  intro s
  cases hp : parseFileRef s with
  | none => left; simp [parse_dependency_name, hp]
  | some m =>
    right
    have hps : parse_dependency_name s = m := by simp [parse_dependency_name, hp]
    rw [hps]
    exact parseFileRef_sound s m hp

/-- C4: rewriting a bare member dependency yields a string that the name
parser maps back to the member name, and rewriting the already-rewritten
string reproduces it byte for byte (with the same recognized name). -/
theorem dependency_rewrite_roundtrip (t : Tree) (dirA : List String) (n : String)
    (q : Proj) (hne : n.data ≠ []) (hall : ∀ c ∈ n.data, isNameChar c = true)
    (hq : findProj t n = some q) :
    parse_dependency_name (rewriteDep t dirA n).1 = n ∧
      rewriteDep t dirA (rewriteDep t dirA n).1 = ((rewriteDep t dirA n).1, some n) := by
  have hbare : parse_dependency_name n = n := by
    simp [parse_dependency_name, parseFileRef_bare n hall]
  have h1 : rewriteDep t dirA n = (memberDependency dirA n q.dir, some n) := by
    simp [rewriteDep, hbare, hq]
  have hmd : memberDependency dirA n q.dir =
      n ++ " @ file://" ++
        ("$" ++ "\x7bPROJECT_ROOT\x7d/" ++ relpath q.dir dirA) := by
    refine String.ext ?_
    simp [memberDependency, String.data_append, List.append_assoc]
  have hparse : parse_dependency_name (memberDependency dirA n q.dir) = n := by
    rw [hmd]
    simp [parse_dependency_name, parseFileRef_rewritten n _ hne hall]
  constructor
  · rw [h1]; exact hparse
  · rw [h1]
    simp [rewriteDep, hparse, hq]

/-- The claim's two-member instance: A at `/w/a`, B at `/w/b`. -/
def wsTreeAB : Tree where
  name := "ws"
  root := { dir := ["w"], doc := [] }
  members :=
    [("A", { dir := ["w", "a"], doc := [] }), ("B", { dir := ["w", "b"], doc := [] })]

/-- Witness for C4 at the claim's instance: with A at `/w/a` depending on
`"B"` at `/w/b`, the rewritten string parses back to `B`, re-rewriting is
byte-identical, and the rewritten string is the expected
`B @ file://$\x7bPROJECT_ROOT\x7d/../b`. -/
theorem dependency_rewrite_roundtrip_witness :
    parse_dependency_name (rewriteDep wsTreeAB ["w", "a"] "B").1 = "B" ∧
      rewriteDep wsTreeAB ["w", "a"] (rewriteDep wsTreeAB ["w", "a"] "B").1 =
        ((rewriteDep wsTreeAB ["w", "a"] "B").1, some "B") ∧
      (rewriteDep wsTreeAB ["w", "a"] "B").1 =
        "B @ file://$" ++ "\x7bPROJECT_ROOT\x7d/../b" :=
  ⟨(dependency_rewrite_roundtrip wsTreeAB ["w", "a"] "B"
      { dir := ["w", "b"], doc := [] } (by decide) (by decide) rfl).1,
    (dependency_rewrite_roundtrip wsTreeAB ["w", "a"] "B"
      { dir := ["w", "b"], doc := [] } (by decide) (by decide) rfl).2, rfl⟩

/-- C3: a dependency whose parsed name resolves to a workspace project is
rewritten to `<name> @ file://$\x7bPROJECT_ROOT\x7d/<relpath>`, the
`$\x7bPROJECT_ROOT\x7d` placeholder appearing literally in the emitted
string; `<relpath>` is `os.path.relpath(dependency dir, member's own dir)`,
whose component list, interpreted from the member's own directory, reaches
exactly the dependency's directory (so it is not a fixed sibling path —
witness a non-sibling layout where it is `../../b`). -/
theorem dependency_rewrite_relative_path (t : Tree) (dirS : List String)
    (dep : String) (q : Proj) (hq : findProj t (parse_dependency_name dep) = some q) :
    rewriteDep t dirS dep =
      (parse_dependency_name dep ++ " @ file://$" ++ "\x7bPROJECT_ROOT\x7d/" ++
        relpath q.dir dirS, some (parse_dependency_name dep)) ∧
      (∀ c p q2 : List String, commonLen p q2 = 0 → (∀ x ∈ p, x ≠ "..") →
        applyRelParts (c ++ q2) (relpathParts (c ++ p) (c ++ q2)) = c ++ p) ∧
      relpath ["w", "b"] ["w", "x", "a"] = "../../b" := by
  refine ⟨?_, fun c p q2 h1 h2 => applyRelParts_relpathParts c p q2 h1 h2, rfl⟩
  simp [rewriteDep, hq, memberDependency]

/-- Witness for C3: `api`-side rewrite of `"core"` from the non-sibling
directory `/w/x/a` emits the literal placeholder and the two-level climb, and
the emitted component list navigates from `/w/x/a` to `/w/core`. -/
theorem dependency_rewrite_relative_path_witness :
    rewriteDep sampleTree ["w", "x", "a"] "core" =
      ("core @ file://$" ++ "\x7bPROJECT_ROOT\x7d/../../core", some "core") ∧
      applyRelParts ["w", "x", "a"] (relpathParts ["w", "core"] ["w", "x", "a"]) =
        ["w", "core"] := by
  have h := dependency_rewrite_relative_path sampleTree ["w", "x", "a"] "core"
    { dir := ["w", "core"], doc := [] } rfl
  refine ⟨by rw [h.1]; rfl, ?_⟩
  have h2 := h.2.1 ["w"] ["core"] ["x", "a"] rfl (by decide)
  simpa using h2

/-! ## Lookup, membership and key-uniqueness lemmas -/

theorem lookup_eq_some_mem {k : String} {v : Val} {d : Table}
    (h : lookup k d = some v) : (k, v) ∈ d := by
  induction d with
  | nil => cases h
  | cons hd tl ih =>
    obtain ⟨k0, v0⟩ := hd
    by_cases h0 : k0 = k
    · subst h0
      simp [lookup] at h
      subst h
      exact List.mem_cons_self _ _
    · simp [lookup, h0] at h
      exact List.mem_cons_of_mem _ (ih h)

theorem lookup_none_iff (k : String) (d : Table) :
    lookup k d = none ↔ k ∉ keys d := by
  induction d with
  | nil => simp [lookup, keys]
  | cons hd tl ih =>
    obtain ⟨k0, v0⟩ := hd
    by_cases h0 : k0 = k
    · subst h0
      simp [lookup, keys]
    · have hkk0 : ¬k = k0 := fun h => h0 h.symm
      simp [lookup, keys, h0, ih, hkk0]

theorem keys_filter_subset (p : String × Val → Bool) (d : Table) :
    keys (d.filter p) ⊆ keys d := by
  intro k hk
  simp only [keys, List.mem_map] at hk ⊢
  obtain ⟨kv, hkv, hkeq⟩ := hk
  exact ⟨kv, (List.mem_filter.1 hkv).1, hkeq⟩

theorem lookup_filter_none (p : String × Val → Bool) (k : String) (v : Val)
    (tbl : Table) (hnd : (keys tbl).Nodup) (hv : lookup k tbl = some v)
    (hp : p (k, v) = false) : lookup k (tbl.filter p) = none := by
  induction tbl with
  | nil => cases hv
  | cons hd tl ih =>
    obtain ⟨k0, v0⟩ := hd
    have hnd' : k0 ∉ keys tl ∧ (keys tl).Nodup := by
      simpa [keys, List.nodup_cons] using hnd
    by_cases h0 : k0 = k
    · subst h0
      simp only [lookup, if_pos rfl] at hv
      obtain rfl : v0 = v := Option.some.inj hv
      simp only [List.filter_cons, hp]
      exact (lookup_none_iff k0 _).2 fun hmem => hnd'.1 (keys_filter_subset p tl hmem)
    · simp only [lookup, if_neg h0] at hv
      have := ih hnd'.2 hv
      cases hcase : p (k0, v0) <;> simp [List.filter_cons, hcase, lookup, h0, this]

theorem lookup_filter_some (p : String × Val → Bool) (k : String) (v : Val)
    (tbl : Table) (hv : lookup k tbl = some v) (hp : p (k, v) = true) :
    lookup k (tbl.filter p) = some v := by
  induction tbl with
  | nil => cases hv
  | cons hd tl ih =>
    obtain ⟨k0, v0⟩ := hd
    by_cases h0 : k0 = k
    · subst h0
      simp only [lookup, if_pos rfl] at hv
      obtain rfl : v0 = v := Option.some.inj hv
      simp [List.filter_cons, hp, lookup]
    · simp only [lookup, if_neg h0] at hv
      have := ih hv
      cases hcase : p (k0, v0) <;> simp [List.filter_cons, hcase, lookup, h0, this]

theorem keys_setKey (k : String) (v : Val) (d : Table) :
    keys (setKey k v d) = if k ∈ keys d then keys d else keys d ++ [k] := by
  induction d with
  | nil => simp [setKey, keys]
  | cons hd tl ih =>
    obtain ⟨k0, v0⟩ := hd
    by_cases h0 : k0 = k
    · subst h0
      simp [setKey, keys]
    · simp only [setKey, if_neg h0, keys, List.map_cons] at ih ⊢
      rw [ih]
      have hkk0 : ¬k = k0 := fun h => h0 h.symm
      by_cases hm : k ∈ keys tl
      · simp only [keys] at hm
        simp [hm, hkk0]
      · simp only [keys] at hm
        simp [hm, hkk0]

theorem nodup_setKey (k : String) (v : Val) (d : Table)
    (hnd : (keys d).Nodup) : (keys (setKey k v d)).Nodup := by
  rw [keys_setKey]
  by_cases hm : k ∈ keys d
  · simpa [hm] using hnd
  · simp only [hm, if_false]
    rw [List.nodup_append]
    exact ⟨hnd, List.nodup_singleton _, by simpa using hm⟩

/-! ## Properties of the `tool.uv.sources` update loop -/

theorem foldl_setKey_preserved (md : List String) (acc : Table) (k : String)
    (w : Val) (hk : lookup k acc = some w)
    (hw : ∀ d ∈ md, d = k → w = Val.table [("workspace", Val.bool true)]) :
    lookup k (md.foldl (fun acc d =>
      setKey d (Val.table [("workspace", Val.bool true)]) acc) acc) = some w := by
  induction md generalizing acc with
  | nil => simpa using hk
  | cons d0 rest ih =>
    simp only [List.foldl_cons]
    by_cases hd : d0 = k
    · subst hd
      have hwv : w = Val.table [("workspace", Val.bool true)] :=
        hw d0 (List.mem_cons_self _ _) rfl
      refine ih (setKey d0 (Val.table [("workspace", Val.bool true)]) acc) ?_
        fun d hd2 he => hw d (List.mem_cons_of_mem _ hd2) he
      rw [lookup_setKey_self, hwv]
    · refine ih _ ?_ fun d hd2 he => hw d (List.mem_cons_of_mem _ hd2) he
      rw [lookup_setKey_ne k d0 _ acc fun h => hd h.symm]
      exact hk

theorem foldl_setKey_mem (md : List String) (acc : Table) (k : String)
    (hk : k ∈ md) :
    lookup k (md.foldl (fun acc d =>
      setKey d (Val.table [("workspace", Val.bool true)]) acc) acc) =
      some (Val.table [("workspace", Val.bool true)]) := by
  induction md generalizing acc with
  | nil => cases hk
  | cons d0 rest ih =>
    simp only [List.foldl_cons]
    by_cases hd : k ∈ rest
    · exact ih _ hd
    · have hd0 : d0 = k := by
        rcases List.mem_cons.1 hk with h | h
        · exact h.symm
        · exact absurd h hd
      subst hd0
      refine foldl_setKey_preserved rest _ d0 _ (lookup_setKey_self _ _ _) ?_
      intro d hd2 he
      exact absurd (he ▸ hd2) hd

theorem foldl_setKey_not_mem (md : List String) (acc : Table) (k : String)
    (hk : k ∉ md) :
    lookup k (md.foldl (fun acc d =>
      setKey d (Val.table [("workspace", Val.bool true)]) acc) acc) =
      lookup k acc := by
  induction md generalizing acc with
  | nil => rfl
  | cons d0 rest ih =>
    simp only [List.foldl_cons]
    have hd0 : d0 ≠ k := fun h => hk (h ▸ List.mem_cons_self _ _)
    rw [ih _ fun h => hk (List.mem_cons_of_mem _ h), lookup_setKey_ne k d0 _ acc
      fun h => hd0 h.symm]

theorem foldl_setKey_nodup (md : List String) (acc : Table)
    (hnd : (keys acc).Nodup) :
    (keys (md.foldl (fun acc d =>
      setKey d (Val.table [("workspace", Val.bool true)]) acc) acc)).Nodup := by
  induction md generalizing acc with
  | nil => exact hnd
  | cons d0 rest ih => exact ih _ (nodup_setKey _ _ _ hnd)

/-- C5 (counterexample): an override entry with `workspace = false` for a
name that *is* a declared member dependency is not left untouched:
`update({dep: {"workspace": True}})` (`workspace_sync.py:241-243`) replaces
it wholesale, dropping the pin.  On `{"x": {"workspace": false, "pin":
"1.0"}}` with member-dependency set `{"x"}` the entry changes. -/
theorem source_override_pinned_entry_overwritten :
    applySources ["x"] [("x", Val.table [("workspace", Val.bool false), ("pin", Val.str "1.0")])] =
        [("x", Val.table [("workspace", Val.bool true)])] ∧
      lookup "x" (applySources ["x"]
          [("x", Val.table [("workspace", Val.bool false), ("pin", Val.str "1.0")])]) ≠
        lookup "x" [("x", Val.table [("workspace", Val.bool false), ("pin", Val.str "1.0")])] :=
  ⟨rfl, fun h =>
    absurd (congrArg (fun o => match o with
      | some (Val.table l) => l.length
      | _ => 0) h) (by decide)⟩

/-- C5 (amended): after reconciliation (keys being unique, as in a parsed
TOML table) the override table holds the entry `{workspace = true}` for every
declared member dependency; every pre-existing entry whose `workspace` flag
is `true` but whose name is no longer a member dependency is removed; every
entry whose `workspace` flag is absent or `false` *and whose name is not a
member dependency* is left untouched (an entry for a declared member
dependency is overwritten to exactly `{workspace = true}`); keys stay
unique, so there is exactly one entry per member dependency. -/
theorem source_override_reconciliation (md : List String) (tbl : Table)
    (hnd : (keys tbl).Nodup) :
    (∀ d ∈ md, lookup d (applySources md tbl) =
        some (Val.table [("workspace", Val.bool true)])) ∧
      (∀ k v, lookup k tbl = some v → wsTrue v = true → k ∉ md →
        lookup k (applySources md tbl) = none) ∧
      (∀ k v, lookup k tbl = some v → wsTrue v = false → k ∉ md →
        lookup k (applySources md tbl) = some v) ∧
      (keys (applySources md tbl)).Nodup := by
  refine ⟨?_, ?_, ?_, ?_⟩
  · intro d hd
    exact foldl_setKey_mem md _ d hd
  · intro k v hv hws hk
    unfold applySources
    rw [foldl_setKey_not_mem md _ k hk]
    refine lookup_filter_none _ k v tbl hnd hv ?_
    simp [hws, hk]
  · intro k v hv hws hk
    unfold applySources
    rw [foldl_setKey_not_mem md _ k hk]
    refine lookup_filter_some _ k v tbl hv ?_
    simp [hws]
  · exact foldl_setKey_nodup md _
      (List.Nodup.sublist (List.Sublist.map Prod.fst (List.filter_sublist tbl)) hnd)

/-- Witness for C5 at the spec's example: override table
`{"x": {workspace = true}, "y": {workspace = true}}` with member-dependency
set `{"x"}` reconciles to exactly `{"x": {workspace = true}}`. -/
theorem source_override_reconciliation_witness :
    applySources ["x"]
        [("x", Val.table [("workspace", Val.bool true)]),
         ("y", Val.table [("workspace", Val.bool true)])] =
      [("x", Val.table [("workspace", Val.bool true)])] ∧
      lookup "x" (applySources ["x"]
        [("x", Val.table [("workspace", Val.bool true)]),
         ("y", Val.table [("workspace", Val.bool true)])]) =
        some (Val.table [("workspace", Val.bool true)]) ∧
      lookup "y" (applySources ["x"]
        [("x", Val.table [("workspace", Val.bool true)]),
         ("y", Val.table [("workspace", Val.bool true)])]) = none := by
  refine ⟨rfl, ?_, ?_⟩
  · exact (source_override_reconciliation ["x"] _ (by decide)).1 "x"
      (List.mem_cons_self _ _)
  · exact (source_override_reconciliation ["x"] _ (by decide)).2.1 "y"
      (Val.table [("workspace", Val.bool true)]) rfl rfl (by decide)

/-- C7: version assignment is a conditional no-op — when the document has a
`project` table whose `version` equals the computed version string the
document is returned entirely unchanged with no change record; when the
version differs (or is absent) the value is assigned and a change record
carrying the previous value is emitted; without a `project` table nothing
happens. -/
theorem version_assignment_noop (V : String) (d : Table) :
    (∀ p, lookup "project" d = some (Val.table p) →
        pyEqStr (lookup "version" p) V = true → sync_version_doc V d = (d, none)) ∧
      (∀ p, lookup "project" d = some (Val.table p) →
        pyEqStr (lookup "version" p) V = false →
        (sync_version_doc V d).2 = some (lookup "version" p) ∧
          lookupPath (sync_version_doc V d).1 ["project", "version"] =
            some (Val.str V)) ∧
      (lookup "project" d = none → sync_version_doc V d = (d, none)) := by
  refine ⟨?_, ?_, ?_⟩
  · intro p hp heq
    simp [sync_version_doc, hp, heq]
  · intro p hp heq
    constructor
    · simp [sync_version_doc, hp, heq]
    · simp only [sync_version_doc, hp, heq, Bool.false_eq_true, if_false]
      simp [lookupPath, lookup_setKey_self]
  · intro hp
    simp [sync_version_doc, hp]

/-- Witness for C7: a project at version `1.0` is untouched by assigning
`1.0`; a project at version `0` gets `1.0` assigned with the change record
carrying the old value. -/
theorem version_assignment_noop_witness :
    sync_version_doc "1.0" [("project", Val.table [("version", Val.str "1.0")])] =
        ([("project", Val.table [("version", Val.str "1.0")])], none) ∧
      (sync_version_doc "1.0" [("project", Val.table [("version", Val.str "0")])]).2 =
        some (some (Val.str "0")) ∧
      lookupPath (sync_version_doc "1.0"
          [("project", Val.table [("version", Val.str "0")])]).1
        ["project", "version"] = some (Val.str "1.0") := by
  refine ⟨?_, ?_, ?_⟩
  · exact (version_assignment_noop "1.0"
      [("project", Val.table [("version", Val.str "1.0")])]).1
      [("version", Val.str "1.0")] rfl rfl
  · exact ((version_assignment_noop "1.0"
      [("project", Val.table [("version", Val.str "0")])]).2.1
      [("version", Val.str "0")] rfl rfl).1
  · exact ((version_assignment_noop "1.0"
      [("project", Val.table [("version", Val.str "0")])]).2.1
      [("version", Val.str "0")] rfl rfl).2

/-- C8 (counterexample): the claim says loading a manifest whose path does
not exist "yields an empty document and never raises"; but the engine's lazy
loader `pyproject.PyProject.data` opens the path unconditionally and raises
`FileNotFoundError` on an absent file, and `projects.Project.__init__` fails
with "Project dir not found".  (The parser argument is irrelevant on an
absent file.) -/
theorem manifest_load_absent_raises :
    pyProjectData (fun _ => .ok []) none = .error .fileNotFound ∧
      projectInit (fun _ => .ok []) ["w", "pyproject.toml"] none = .error .dirNotFound :=
  ⟨rfl, rfl⟩

/-- C8 (amended): the workspace tree loader `projects.PyProject.reload`
yields an empty document for an absent file and never raises, and parses an
existing file, propagating a parse failure as the parser's own error (which
carries no file path); the legacy `projects.Project.__init__` loader is the
one that wraps a parse failure in a fatal error carrying the file path and
the underlying cause (but it rejects an absent file instead of yielding an
empty document, and `pyproject.PyProject.data` raises on an absent file). -/
theorem manifest_load_semantics (parse : String → Except Nat Table) :
    pyProjectReload parse none = .ok [] ∧
      (∀ t c, parse t = .error c →
        pyProjectReload parse (some t) = .error (.parseErr c)) ∧
      (∀ t doc, parse t = .ok doc → pyProjectReload parse (some t) = .ok doc) ∧
      (∀ p t c,
        parse (if rstripText t = "" then rstripText t else rstripText t ++ "\n") =
          .error c →
        projectInit parse p (some t) = .error (.projectError p c)) := by
  refine ⟨rfl, ?_, ?_, ?_⟩
  · intro t c h
    simp [pyProjectReload, h]
  · intro t doc h
    simp [pyProjectReload, h]
  · intro p t c h
    simp only [projectInit]
    rw [h]

/-- Witness for C8 (amended) with a concrete always-failing parser and a
concrete succeeding parser. -/
theorem manifest_load_semantics_witness :
    pyProjectReload (fun _ => .error 7) none = .ok [] ∧
      pyProjectReload (fun _ => .error 7) (some "x") = .error (.parseErr 7) ∧
      pyProjectReload (fun _ => .ok [("a", Val.int 1)]) (some "a = 1") =
        .ok [("a", Val.int 1)] ∧
      projectInit (fun _ => .error 7) ["w", "pyproject.toml"] (some "bad") =
        .error (.projectError ["w", "pyproject.toml"] 7) :=
  ⟨(manifest_load_semantics (fun _ => .error 7)).1,
    (manifest_load_semantics (fun _ => .error 7)).2.1 "x" 7 rfl,
    (manifest_load_semantics (fun _ => .ok [("a", Val.int 1)])).2.2.1 "a = 1" _ rfl,
    (manifest_load_semantics (fun _ => .error 7)).2.2.2 ["w", "pyproject.toml"] "bad" 7 rfl⟩

/-! ## Key uniqueness at every nesting level (as guaranteed by parsed TOML)
and idempotence of `mergedeep.merge`. -/

mutual
/-- Unique keys at every table level of a value. -/
def nodupDeepV : Val → Bool
  | .table kvs => nodupDeepT kvs
  | .arr vs => nodupDeepA vs
  | _ => true

def nodupDeepT : Table → Bool
  | [] => true
  | (k, v) :: rest => decide (k ∉ keys rest) && nodupDeepV v && nodupDeepT rest

def nodupDeepA : List Val → Bool
  | [] => true
  | v :: vs => nodupDeepV v && nodupDeepA vs
end

theorem nodupDeepT_cons {k : String} {v : Val} {rest : Table}
    (h : nodupDeepT ((k, v) :: rest) = true) :
    k ∉ keys rest ∧ nodupDeepV v = true ∧ nodupDeepT rest = true := by
  simp only [nodupDeepT, Bool.and_eq_true, decide_eq_true_eq] at h
  exact ⟨h.1.1, h.1.2, h.2⟩

theorem lookup_of_mem_nodup {s : Table} {k : String} {v : Val}
    (hnd : (keys s).Nodup) (hm : (k, v) ∈ s) : lookup k s = some v := by
  induction s with
  | nil => cases hm
  | cons hd tl ih =>
    obtain ⟨k0, v0⟩ := hd
    have hnd' : k0 ∉ keys tl ∧ (keys tl).Nodup := by
      simpa [keys, List.nodup_cons] using hnd
    rcases List.mem_cons.1 hm with heq | htl
    · obtain ⟨hk, hv⟩ := Prod.mk.injEq .. ▸ heq
      subst hk; subst hv
      simp [lookup]
    · have hk0 : k0 ≠ k := by
        intro h; subst h
        exact hnd'.1 (List.mem_map_of_mem Prod.fst htl)
      simp only [lookup, if_neg hk0]
      exact ih hnd'.2 htl

theorem nodup_keys_of_nodupDeepT {s : Table} (h : nodupDeepT s = true) :
    (keys s).Nodup := by
  induction s with
  | nil => simp [keys]
  | cons hd tl ih =>
    obtain ⟨k0, v0⟩ := hd
    obtain ⟨h1, _, h3⟩ := nodupDeepT_cons h
    simp only [keys, List.map_cons, List.nodup_cons]
    exact ⟨h1, ih h3⟩

theorem mergeTable_nil (d : Table) : mergeTable d [] = d := by
  rw [mergeTable]

theorem mergeTable_cons (d : Table) (k : String) (v : Val) (rest : Table) :
    mergeTable d ((k, v) :: rest) = mergeTable (mergeEntry d k v) rest := by
  rw [mergeTable]

/-- With a non-table source value, `mergeEntry` is plain assignment. -/
theorem mergeEntry_nontable (d : Table) (k : String) (v : Val)
    (hv : ∀ sk, v ≠ Val.table sk) : mergeEntry d k v = setKey k v d := by
  cases hl : lookup k d with
  | none => cases v <;> simp [mergeEntry, hl]
  | some w =>
    cases w <;> cases v <;> first
      | exact absurd rfl (hv _)
      | simp [mergeEntry, hl]

theorem mergeEntry_table_table (d : Table) (k : String) (dk sk : Table)
    (hl : lookup k d = some (Val.table dk)) :
    mergeEntry d k (Val.table sk) = setKey k (Val.table (mergeTable dk sk)) d := by
  simp [mergeEntry, hl]

theorem mergeEntry_table_other (d : Table) (k : String) (sk : Table)
    (hl : ∀ dk, lookup k d ≠ some (Val.table dk)) :
    mergeEntry d k (Val.table sk) = setKey k (Val.table sk) d := by
  cases hl2 : lookup k d with
  | none => simp [mergeEntry, hl2]
  | some w =>
    cases w <;> first
      | exact absurd hl2 (hl _)
      | simp [mergeEntry, hl2]

theorem mergeTable_lookup_not_mem (s : Table) (d : Table) (k : String)
    (hk : k ∉ keys s) : lookup k (mergeTable d s) = lookup k d := by
  induction s generalizing d with
  | nil => rw [mergeTable_nil]
  | cons hd rest ih =>
    obtain ⟨k0, v0⟩ := hd
    have hk0 : k0 ≠ k := by
      intro h; subst h
      exact hk (List.mem_cons_self _ _)
    have hkr : k ∉ keys rest := fun h => hk (List.mem_cons_of_mem _ h)
    rw [mergeTable_cons, ih _ hkr]
    have hne := lookup_setKey_ne k k0 (Val.table []) d fun h => hk0 h.symm
    cases hl : lookup k0 d with
    | none =>
      cases v0 <;> simp [mergeEntry, hl, lookup_setKey_ne k k0 _ d fun h => hk0 h.symm]
    | some w =>
      cases w <;> cases v0 <;>
        simp [mergeEntry, hl, lookup_setKey_ne k k0 _ d fun h => hk0 h.symm]

/-- Merging a source whose every binding is already present verbatim in the
destination is a no-op (so in particular `merge(s, s) = s`). -/
theorem mergeTable_noop (s : Table) (hnd : nodupDeepT s = true) (d : Table)
    (hd : ∀ p ∈ s, lookup p.1 d = some p.2) : mergeTable d s = d := by
  match s with
  | [] => rw [mergeTable_nil]
  | (k, v) :: rest =>
    obtain ⟨hk, hv, hrest⟩ := nodupDeepT_cons hnd
    have hkd : lookup k d = some v := hd (k, v) (List.mem_cons_self _ _)
    rw [mergeTable_cons]
    have hstep : mergeEntry d k v = d := by
      cases v with
      | table vt =>
        have hndvt : nodupDeepT vt = true := by simpa [nodupDeepV] using hv
        have hself : mergeTable vt vt = vt :=
          mergeTable_noop vt hndvt vt fun p hp =>
            lookup_of_mem_nodup (nodup_keys_of_nodupDeepT hndvt) hp
        rw [mergeEntry_table_table d k vt vt hkd, hself]
        exact setKey_same k _ d hkd
      | vNone =>
        rw [mergeEntry_nontable d k _ fun sk h => Val.noConfusion h]
        exact setKey_same k _ d hkd
      | str s0 =>
        rw [mergeEntry_nontable d k _ fun sk h => Val.noConfusion h]
        exact setKey_same k _ d hkd
      | int n0 =>
        rw [mergeEntry_nontable d k _ fun sk h => Val.noConfusion h]
        exact setKey_same k _ d hkd
      | bool b0 =>
        rw [mergeEntry_nontable d k _ fun sk h => Val.noConfusion h]
        exact setKey_same k _ d hkd
      | arr a0 =>
        rw [mergeEntry_nontable d k _ fun sk h => Val.noConfusion h]
        exact setKey_same k _ d hkd
    rw [hstep]
    exact mergeTable_noop rest hrest d fun p hp => hd p (List.mem_cons_of_mem _ hp)
termination_by sizeOf s
decreasing_by all_goals (simp_wf; try subst_vars; simp_arith; try omega)

/-- `merge(s, s) = s` for unique-keyed sources. -/
theorem mergeTable_self (s : Table) (hnd : nodupDeepT s = true) :
    mergeTable s s = s :=
  mergeTable_noop s hnd s fun _ hp =>
    lookup_of_mem_nodup (nodup_keys_of_nodupDeepT hnd) hp

theorem mergeEntry_lookup_self_nontable (d : Table) (k : String) (v : Val)
    (hv : ∀ sk, v ≠ Val.table sk) : lookup k (mergeEntry d k v) = some v := by
  rw [mergeEntry_nontable d k v hv, lookup_setKey_self]

/-- `mergedeep.merge` absorption: merging the same unique-keyed source twice
is the same as merging it once. -/
theorem mergeTable_absorb (s : Table) (hnd : nodupDeepT s = true) (d : Table) :
    mergeTable (mergeTable d s) s = mergeTable d s := by
  match s with
  | [] => rw [mergeTable_nil]
  | (k, v) :: rest =>
    obtain ⟨hk, hv, hrest⟩ := nodupDeepT_cons hnd
    rw [mergeTable_cons, mergeTable_cons]
    have f1 : lookup k (mergeTable (mergeEntry d k v) rest) = lookup k (mergeEntry d k v) :=
      mergeTable_lookup_not_mem rest (mergeEntry d k v) k hk
    have hstep : mergeEntry (mergeTable (mergeEntry d k v) rest) k v =
        mergeTable (mergeEntry d k v) rest := by
      cases v with
      | table vt =>
        have hndvt : nodupDeepT vt = true := by simpa [nodupDeepV] using hv
        have hself : mergeTable vt vt = vt := mergeTable_self vt hndvt
        cases hl : lookup k d with
        | some w =>
          cases w with
          | table dt =>
            have hd1k : lookup k (mergeEntry d k (Val.table vt)) =
                some (Val.table (mergeTable dt vt)) := by
              rw [mergeEntry_table_table d k dt vt hl, lookup_setKey_self]
            rw [mergeEntry_table_table _ k _ vt (f1.trans hd1k),
              mergeTable_absorb vt hndvt dt]
            exact setKey_same k _ _ (f1.trans hd1k)
          | vNone =>
            have hd1k : lookup k (mergeEntry d k (Val.table vt)) = some (Val.table vt) := by
              rw [mergeEntry_table_other d k vt (by intro dk h; rw [hl] at h; cases h),
                lookup_setKey_self]
            rw [mergeEntry_table_table _ k vt vt (f1.trans hd1k), hself]
            exact setKey_same k _ _ (f1.trans hd1k)
          | str s0 =>
            have hd1k : lookup k (mergeEntry d k (Val.table vt)) = some (Val.table vt) := by
              rw [mergeEntry_table_other d k vt (by intro dk h; rw [hl] at h; cases h),
                lookup_setKey_self]
            rw [mergeEntry_table_table _ k vt vt (f1.trans hd1k), hself]
            exact setKey_same k _ _ (f1.trans hd1k)
          | int n0 =>
            have hd1k : lookup k (mergeEntry d k (Val.table vt)) = some (Val.table vt) := by
              rw [mergeEntry_table_other d k vt (by intro dk h; rw [hl] at h; cases h),
                lookup_setKey_self]
            rw [mergeEntry_table_table _ k vt vt (f1.trans hd1k), hself]
            exact setKey_same k _ _ (f1.trans hd1k)
          | bool b0 =>
            have hd1k : lookup k (mergeEntry d k (Val.table vt)) = some (Val.table vt) := by
              rw [mergeEntry_table_other d k vt (by intro dk h; rw [hl] at h; cases h),
                lookup_setKey_self]
            rw [mergeEntry_table_table _ k vt vt (f1.trans hd1k), hself]
            exact setKey_same k _ _ (f1.trans hd1k)
          | arr a0 =>
            have hd1k : lookup k (mergeEntry d k (Val.table vt)) = some (Val.table vt) := by
              rw [mergeEntry_table_other d k vt (by intro dk h; rw [hl] at h; cases h),
                lookup_setKey_self]
            rw [mergeEntry_table_table _ k vt vt (f1.trans hd1k), hself]
            exact setKey_same k _ _ (f1.trans hd1k)
        | none =>
          have hd1k : lookup k (mergeEntry d k (Val.table vt)) = some (Val.table vt) := by
            rw [mergeEntry_table_other d k vt (by intro dk h; rw [hl] at h; cases h),
              lookup_setKey_self]
          rw [mergeEntry_table_table _ k vt vt (f1.trans hd1k), hself]
          exact setKey_same k _ _ (f1.trans hd1k)
      | vNone =>
        have hd1k := mergeEntry_lookup_self_nontable d k Val.vNone fun sk h => Val.noConfusion h
        rw [mergeEntry_nontable _ k _ fun sk h => Val.noConfusion h]
        exact setKey_same k _ _ (f1.trans hd1k)
      | str s0 =>
        have hd1k := mergeEntry_lookup_self_nontable d k (Val.str s0) fun sk h => Val.noConfusion h
        rw [mergeEntry_nontable _ k _ fun sk h => Val.noConfusion h]
        exact setKey_same k _ _ (f1.trans hd1k)
      | int n0 =>
        have hd1k := mergeEntry_lookup_self_nontable d k (Val.int n0) fun sk h => Val.noConfusion h
        rw [mergeEntry_nontable _ k _ fun sk h => Val.noConfusion h]
        exact setKey_same k _ _ (f1.trans hd1k)
      | bool b0 =>
        have hd1k := mergeEntry_lookup_self_nontable d k (Val.bool b0) fun sk h => Val.noConfusion h
        rw [mergeEntry_nontable _ k _ fun sk h => Val.noConfusion h]
        exact setKey_same k _ _ (f1.trans hd1k)
      | arr a0 =>
        have hd1k := mergeEntry_lookup_self_nontable d k (Val.arr a0) fun sk h => Val.noConfusion h
        rw [mergeEntry_nontable _ k _ fun sk h => Val.noConfusion h]
        exact setKey_same k _ _ (f1.trans hd1k)
    rw [hstep]
    exact mergeTable_absorb rest hrest (mergeEntry d k v)
termination_by sizeOf s
decreasing_by all_goals (simp_wf; try subst_vars; simp_arith; try omega)

/-! ## Lemmas about the `tool.uv.sources` navigation and reconciliation -/

theorem lookup_removeKey_ne (k k' : String) (d : Table) (h : k ≠ k') :
    lookup k (removeKey k' d) = lookup k d := by
  induction d with
  | nil => rfl
  | cons hd tl ih =>
    obtain ⟨k0, v0⟩ := hd
    by_cases h0 : k0 = k'
    · subst h0
      have hk : ¬k0 = k := fun hh => h (hh ▸ rfl)
      simp [removeKey, lookup, hk]
    · by_cases h1 : k0 = k <;> simp [removeKey, lookup, h0, h1, h, ih]

theorem lookup_some_mem_keys {k : String} {v : Val} {d : Table}
    (h : lookup k d = some v) : k ∈ keys d := by
  by_contra hk
  rw [(lookup_none_iff k d).2 hk] at h
  cases h

theorem lookup_removeKey_self (k : String) (d : Table)
    (hnd : (keys d).Nodup) : lookup k (removeKey k d) = none := by
  induction d with
  | nil => rfl
  | cons hd tl ih =>
    obtain ⟨k0, v0⟩ := hd
    have hnd' : k0 ∉ keys tl ∧ (keys tl).Nodup := by
      simpa [keys, List.nodup_cons] using hnd
    by_cases h0 : k0 = k
    · subst h0
      simp only [removeKey, if_pos rfl]
      exact (lookup_none_iff _ _).2 hnd'.1
    · simp only [removeKey, if_neg h0, lookup, if_neg h0]
      exact ih hnd'.2

theorem keys_removeKey_sublist (k : String) (d : Table) :
    List.Sublist (keys (removeKey k d)) (keys d) := by
  induction d with
  | nil => exact List.Sublist.refl _
  | cons hd tl ih =>
    obtain ⟨k0, v0⟩ := hd
    by_cases h0 : k0 = k
    · simp only [removeKey, if_pos h0, keys, List.map_cons]
      exact List.sublist_cons_of_sublist _ (List.Sublist.refl _)
    · simp only [removeKey, if_neg h0, keys, List.map_cons]
      exact List.Sublist.cons₂ _ ih

theorem nodup_removeKey (k : String) (d : Table) (hnd : (keys d).Nodup) :
    (keys (removeKey k d)).Nodup :=
  List.Nodup.sublist (keys_removeKey_sublist k d) hnd

theorem setKey_ne_nil (k : String) (v : Val) (d : Table) : setKey k v d ≠ [] := by
  cases d with
  | nil => simp [setKey]
  | cons hd tl =>
    obtain ⟨k0, v0⟩ := hd
    by_cases h0 : k0 = k <;> simp [setKey, h0]

theorem contains_iff_mem (l : List String) (a : String) :
    l.contains a = true ↔ a ∈ l := by
  induction l with
  | nil => simp
  | cons b bs ih => simp [List.contains_cons, ih]

theorem mem_setKey {k k' : String} {v w : Val} {d : Table}
    (h : (k, v) ∈ setKey k' w d) : (k = k' ∧ v = w) ∨ (k, v) ∈ d := by
  induction d with
  | nil =>
    simp only [setKey, List.mem_singleton, Prod.mk.injEq] at h
    exact Or.inl h
  | cons hd tl ih =>
    obtain ⟨k0, v0⟩ := hd
    by_cases h0 : k0 = k'
    · subst h0
      simp [setKey, Prod.mk.injEq] at h
      exact h.imp id (List.mem_cons_of_mem _)
    · simp only [setKey, if_neg h0, List.mem_cons] at h
      rcases h with heq | htl
      · exact Or.inr (List.mem_cons.2 (Or.inl heq))
      · rcases ih htl with h1 | h2
        · exact Or.inl h1
        · exact Or.inr (List.mem_cons_of_mem _ h2)

theorem mem_foldl_setKey {md : List String} {acc : Table} {p : String × Val}
    (h : p ∈ md.foldl (fun acc d =>
      setKey d (Val.table [("workspace", Val.bool true)]) acc) acc) :
    p ∈ acc ∨ (p.1 ∈ md ∧ p.2 = Val.table [("workspace", Val.bool true)]) := by
  induction md generalizing acc with
  | nil => exact Or.inl h
  | cons d0 rest ih =>
    simp only [List.foldl_cons] at h
    rcases ih h with hacc | hmd
    · obtain ⟨p1, p2⟩ := p
      rcases mem_setKey hacc with ⟨h1, h2⟩ | hin
      · exact Or.inr ⟨by simp [h1], h2⟩
      · exact Or.inl hin
    · exact Or.inr ⟨List.mem_cons_of_mem _ hmd.1, hmd.2⟩

theorem foldl_setKey_noop (md : List String) (acc : Table)
    (h : ∀ k ∈ md, lookup k acc = some (Val.table [("workspace", Val.bool true)])) :
    md.foldl (fun acc d =>
      setKey d (Val.table [("workspace", Val.bool true)]) acc) acc = acc := by
  induction md with
  | nil => rfl
  | cons d0 rest ih =>
    simp only [List.foldl_cons]
    rw [setKey_same d0 _ acc (h d0 (List.mem_cons_self _ _))]
    exact ih fun k hk => h k (List.mem_cons_of_mem _ hk)

/-- Reconciliation is idempotent: a second pass removes nothing (everything
left either passed the same filter or is a fresh `{workspace = true}` entry
for a member dependency) and re-assigns only identical values. -/
theorem applySources_idem (md : List String) (s : Table) :
    applySources md (applySources md s) = applySources md s := by
  have hall : List.filter (fun kv : String × Val => !(wsTrue kv.2 && !md.contains kv.1))
      (applySources md s) = applySources md s := by
    refine List.filter_eq_self.2 ?_
    intro p hp
    have hp2 : p ∈ List.foldl (fun acc d =>
        setKey d (Val.table [("workspace", Val.bool true)]) acc)
        (List.filter (fun kv => !(wsTrue kv.2 && !md.contains kv.1)) s) md := hp
    rcases mem_foldl_setKey hp2 with hf | ⟨hm, hv⟩
    · simpa using (List.mem_filter.1 hf).2
    · have hc : md.contains p.1 = true := (contains_iff_mem md p.1).2 hm
      simp [hv, wsTrue, lookup, hc, hm]
  have hmem : ∀ k ∈ md, lookup k (applySources md s) =
      some (Val.table [("workspace", Val.bool true)]) := fun k hk =>
    foldl_setKey_mem md (List.filter (fun kv => !(wsTrue kv.2 && !md.contains kv.1)) s) k hk
  show List.foldl (fun acc d => setKey d (Val.table [("workspace", Val.bool true)]) acc)
    (List.filter (fun kv => !(wsTrue kv.2 && !md.contains kv.1)) (applySources md s)) md =
    applySources md s
  rw [hall]
  exact foldl_setKey_noop md _ hmem

theorem applySources_ne_nil (md : List String) (s : Table) (hmd : md ≠ []) :
    applySources md s ≠ [] := by
  intro h
  obtain ⟨k0, rest, hk⟩ : ∃ k0 rest, md = k0 :: rest := by
    cases md with
    | nil => exact absurd rfl hmd
    | cons a b => exact ⟨a, b, rfl⟩
  have hmem : k0 ∈ md := by rw [hk]; exact List.mem_cons_self _ _
  have h2 := foldl_setKey_mem md
    (s.filter fun kv => !(wsTrue kv.2 && !md.contains kv.1)) k0 hmem
  unfold applySources at h
  rw [h] at h2
  cases h2

/-- Well-formedness of the key chain walked by `PyProject.table`: at every
level the keys are unique and the walked key, when present, holds a table.
(A present non-table value is exactly the detachment case of the
counterexample.) -/
def chainOK : List String → Table → Bool
  | [], _ => true
  | k :: rest, tbl =>
    decide ((keys tbl).Nodup) &&
      (match lookup k tbl with
       | none => true
       | some (.table sub) => chainOK rest sub
       | some _ => false)

theorem chainOK_nodup {k : String} {rest : List String} {tbl : Table}
    (h : chainOK (k :: rest) tbl = true) : (keys tbl).Nodup := by
  simp only [chainOK, Bool.and_eq_true, decide_eq_true_eq] at h
  exact h.1

theorem chainOK_table {k : String} {rest : List String} {tbl sub : Table}
    (h : chainOK (k :: rest) tbl = true) (hl : lookup k tbl = some (.table sub)) :
    chainOK rest sub = true := by
  simp only [chainOK, Bool.and_eq_true, decide_eq_true_eq] at h
  have h2 := h.2
  rw [hl] at h2
  simpa using h2

theorem chainOK_nil_tbl (rest : List String) : chainOK rest [] = true := by
  cases rest <;> simp [chainOK, keys, lookup]

theorem chainOK_cons_intro {k : String} {rest : List String} {tbl : Table}
    (h1 : (keys tbl).Nodup)
    (h2 : match lookup k tbl with
      | none => True
      | some (.table sub) => chainOK rest sub = true
      | some _ => False) : chainOK (k :: rest) tbl = true := by
  simp only [chainOK, Bool.and_eq_true, decide_eq_true_eq]
  refine ⟨h1, ?_⟩
  cases hl : lookup k tbl with
  | none => rfl
  | some w =>
    rw [hl] at h2
    cases w <;> first | exact h2 | exact h2.elim

/-- A walk that returned a table modified the input only at the walked key. -/
theorem sourcesWalk_preserves (c : Bool) (md : List String) (tbl : Table)
    (k : String) (rest : List String) (X : Table)
    (h : sourcesWalk c md tbl (k :: rest) = some X) (k2 : String) (hk2 : k2 ≠ k) :
    lookup k2 X = lookup k2 tbl := by
  simp only [sourcesWalk] at h
  split at h
  next sub heq =>
    split at h
    next sub' hr =>
      obtain rfl := Option.some.inj h
      by_cases he : sub'.isEmpty <;>
        simp [he, lookup_removeKey_ne _ _ _ hk2, lookup_setKey_ne _ _ _ _ hk2]
    next hr => cases h
  next w heq hnt =>
    split at h
    · obtain rfl := Option.some.inj h
      exact lookup_removeKey_ne _ _ _ hk2
    · cases h
  next heq =>
    split at h
    · split at h
      next sub' hr =>
        obtain rfl := Option.some.inj h
        by_cases he : sub'.isEmpty <;> simp [he, lookup_setKey_ne _ _ _ _ hk2]
      next hr => cases h
    · cases h

/-- With `create = True` the walk always returns a table. -/
theorem sourcesWalk_some_of_create (md : List String) (keys0 : List String) :
    ∀ tbl : Table, (sourcesWalk true md tbl keys0).isSome = true := by
  induction keys0 with
  | nil => exact fun tbl => rfl
  | cons k rest ih =>
    intro tbl
    simp only [sourcesWalk]
    split
    next sub heq =>
      split
      next sub' hr => rfl
      next hr =>
        have hs := ih sub
        rw [hr] at hs
        cases hs
    next w heq hnt => simp
    next heq =>
      split
      · split
        next sub' hr => rfl
        next hr =>
          have hs := ih []
          rw [hr] at hs
          cases hs
      next hcond => exact absurd trivial hcond

/-- With `create = True`, a non-empty member-dependency list and a sound
chain, the walk's result is non-empty (the reconciliation adds the member
entries). -/
theorem sourcesWalk_ne_nil (md : List String) (hmd : md ≠ []) :
    ∀ (keys0 : List String) (tbl X : Table), chainOK keys0 tbl = true →
      sourcesWalk true md tbl keys0 = some X → X ≠ [] := by
  intro keys0
  induction keys0 with
  | nil =>
    intro tbl X _ h
    obtain rfl := Option.some.inj h
    exact applySources_ne_nil md tbl hmd
  | cons k rest ih =>
    intro tbl X hok h
    simp only [sourcesWalk] at h
    split at h
    next sub heq =>
      split at h
      next sub' hr =>
        obtain rfl := Option.some.inj h
        have hne := ih sub sub' (chainOK_table hok heq) hr
        rw [if_neg fun hh => hne (List.isEmpty_iff.mp hh)]
        exact setKey_ne_nil _ _ _
      next hr => cases h
    next w hne2 hl =>
      exfalso
      have h2 : chainOK (k :: rest) tbl = true := hok
      simp only [chainOK, Bool.and_eq_true] at h2
      have h3 := h2.2
      rw [hl] at h3
      cases w with
      | table sub => exact hne2 sub rfl
      | vNone => simp at h3
      | str s0 => simp at h3
      | int n0 => simp at h3
      | bool b0 => simp at h3
      | arr a0 => simp at h3
    next heq =>
      split at h
      · split at h
        next sub' hr =>
          obtain rfl := Option.some.inj h
          have hne := ih [] sub' (chainOK_nil_tbl rest) hr
          rw [if_neg fun hh => hne (List.isEmpty_iff.mp hh)]
          exact setKey_ne_nil _ _ _
        next hr => cases h
      · cases h

theorem chainOK_setKey_ne (k' : String) (v : Val) {k : String} {rest : List String}
    {tbl : Table} (hne : k' ≠ k) (h : chainOK (k :: rest) tbl = true) :
    chainOK (k :: rest) (setKey k' v tbl) = true := by
  refine chainOK_cons_intro (nodup_setKey _ _ _ (chainOK_nodup h)) ?_
  rw [lookup_setKey_ne k k' v tbl fun hh => hne hh.symm]
  simp only [chainOK, Bool.and_eq_true] at h
  have h3 := h.2
  cases hl : lookup k tbl with
  | none => exact trivial
  | some w =>
    rw [hl] at h3
    cases w with
    | table sub => simpa using h3
    | vNone => simp at h3
    | str s0 => simp at h3
    | int n0 => simp at h3
    | bool b0 => simp at h3
    | arr a0 => simp at h3

/-- The `create = True` walk is idempotent on its own output, and its output
chain stays sound (for a non-empty member-dependency list). -/
theorem sourcesWalkT_idem (md : List String) (hmd : md ≠ []) :
    ∀ (keys0 : List String) (tbl X : Table), chainOK keys0 tbl = true →
      sourcesWalk true md tbl keys0 = some X →
      chainOK keys0 X = true ∧ sourcesWalk true md X keys0 = some X := by
  intro keys0
  induction keys0 with
  | nil =>
    intro tbl X _ h
    obtain rfl := Option.some.inj h
    refine ⟨rfl, ?_⟩
    simp only [sourcesWalk]
    rw [applySources_idem]
  | cons k rest ih =>
    intro tbl X hok h
    simp only [sourcesWalk] at h
    split at h
    next sub heq =>
      split at h
      next sub' hr =>
        obtain rfl := Option.some.inj h
        have hcsub := chainOK_table hok heq
        have hne := sourcesWalk_ne_nil md hmd rest sub sub' hcsub hr
        rw [if_neg fun hh => hne (List.isEmpty_iff.mp hh)]
        obtain ⟨hc2, hw2⟩ := ih sub sub' hcsub hr
        constructor
        · refine chainOK_cons_intro (nodup_setKey _ _ _ (chainOK_nodup hok)) ?_
          rw [lookup_setKey_self]
          exact hc2
        · simp only [sourcesWalk, lookup_setKey_self, hw2]
          rw [if_neg fun hh => hne (List.isEmpty_iff.mp hh), setKey_setKey]
      next hr =>
        have hs := sourcesWalk_some_of_create md rest sub
        rw [hr] at hs
        cases hs
    next w hne2 hl =>
      exfalso
      have h2 : chainOK (k :: rest) tbl = true := hok
      simp only [chainOK, Bool.and_eq_true] at h2
      have h3 := h2.2
      rw [hl] at h3
      cases w with
      | table sub => exact hne2 sub rfl
      | vNone => simp at h3
      | str s0 => simp at h3
      | int n0 => simp at h3
      | bool b0 => simp at h3
      | arr a0 => simp at h3
    next heq =>
      split at h
      · split at h
        next sub' hr =>
          obtain rfl := Option.some.inj h
          have hne := sourcesWalk_ne_nil md hmd rest [] sub' (chainOK_nil_tbl rest) hr
          rw [if_neg fun hh => hne (List.isEmpty_iff.mp hh)]
          obtain ⟨hc2, hw2⟩ := ih [] sub' (chainOK_nil_tbl rest) hr
          constructor
          · refine chainOK_cons_intro (nodup_setKey _ _ _ (chainOK_nodup hok)) ?_
            rw [lookup_setKey_self]
            exact hc2
          · simp only [sourcesWalk, lookup_setKey_self, hw2]
            rw [if_neg fun hh => hne (List.isEmpty_iff.mp hh), setKey_setKey]
        next hr =>
          have hs := sourcesWalk_some_of_create md rest []
          rw [hr] at hs
          cases hs
      · cases h

/-- The `create = False` walk (member-dependency list empty) applied to its
own output either reproduces it or fails; the output chain stays sound. -/
theorem sourcesWalkF_idem :
    ∀ (keys0 : List String) (tbl X : Table), chainOK keys0 tbl = true →
      sourcesWalk false [] tbl keys0 = some X →
      chainOK keys0 X = true ∧
        (sourcesWalk false [] X keys0 = some X ∨ sourcesWalk false [] X keys0 = none) := by
  intro keys0
  induction keys0 with
  | nil =>
    intro tbl X _ h
    obtain rfl := Option.some.inj h
    refine ⟨rfl, Or.inl ?_⟩
    simp only [sourcesWalk]
    rw [applySources_idem]
  | cons k rest ih =>
    intro tbl X hok h
    simp only [sourcesWalk] at h
    split at h
    next sub heq =>
      split at h
      next sub' hr =>
        obtain rfl := Option.some.inj h
        have hcsub := chainOK_table hok heq
        obtain ⟨hc2, hw2⟩ := ih sub sub' hcsub hr
        by_cases he : sub'.isEmpty = true
        · rw [if_pos he]
          constructor
          · refine chainOK_cons_intro (nodup_removeKey _ _ (chainOK_nodup hok)) ?_
            rw [lookup_removeKey_self k tbl (chainOK_nodup hok)]
            exact trivial
          · refine Or.inr ?_
            simp [sourcesWalk, lookup_removeKey_self k tbl (chainOK_nodup hok)]
        · rw [if_neg he]
          constructor
          · refine chainOK_cons_intro (nodup_setKey _ _ _ (chainOK_nodup hok)) ?_
            rw [lookup_setKey_self]
            exact hc2
          · rcases hw2 with hw2 | hw2
            · refine Or.inl ?_
              simp only [sourcesWalk, lookup_setKey_self, hw2]
              rw [if_neg he, setKey_setKey]
            · refine Or.inr ?_
              simp [sourcesWalk, lookup_setKey_self, hw2]
      next hr => cases h
    next w hne2 hl => simp at h
    next heq => simp at h

/-! ## Static topology of a tree, and stability of the dependency rewrite -/

/-- The static topology of a workspace tree: the root name, the root
directory, and each member's name and directory, in order.  Every
synchronization operation changes only documents, and the dependency
rewriting reads nothing else of the tree. -/
def topo (t : Tree) : String × List String × List (String × List String) :=
  (t.name, t.root.dir, t.members.map fun m => (m.1, m.2.dir))

/-- The name lies in the regex character class `[\w\-\.\[\]]+`. -/
def nameOK (s : String) : Bool :=
  !s.data.isEmpty && s.data.all isNameChar

/-- Every name a dependency can resolve to is a regex-class name (`uv`
project names satisfy this). -/
def namesOK (t : Tree) : Bool :=
  nameOK t.name && t.members.all fun m => nameOK m.1

theorem topo_sync_version (V : String) (t : Tree) : topo (sync_version V t) = topo t := by
  simp [topo, sync_version, List.map_map, Function.comp]

theorem topo_sync_build_system (t : Tree) : topo (sync_build_system t) = topo t := by
  simp only [sync_build_system]
  split
  · simp [topo, List.map_map, Function.comp]
  · rfl

theorem topo_sync_member_project_tool (t : Tree) :
    topo (sync_member_project_tool t) = topo t := by
  simp only [sync_member_project_tool]
  split
  · split <;> first | rfl | simp [topo, List.map_map, Function.comp]
  · rfl

theorem topo_sync_member_project_dependencies (t : Tree) :
    topo (sync_member_project_dependencies t) = topo t := by
  simp [topo, sync_member_project_dependencies, List.map_map, Function.comp]

theorem lookupMember_dir_congr (k : String) :
    ∀ (ms ms' : List (String × Proj)),
      ms'.map (fun m => (m.1, m.2.dir)) = ms.map (fun m => (m.1, m.2.dir)) →
      (lookupMember k ms').map Proj.dir = (lookupMember k ms).map Proj.dir := by
  intro ms
  induction ms with
  | nil =>
    intro ms' h
    rw [List.map_eq_nil_iff.mp h]
  | cons m0 rest ih =>
    intro ms' h
    obtain ⟨k0, p0⟩ := m0
    cases ms' with
    | nil => cases h
    | cons m0' rest' =>
      obtain ⟨k0', p0'⟩ := m0'
      simp only [List.map_cons, List.cons.injEq, Prod.mk.injEq] at h
      obtain ⟨⟨hk, hd⟩, hrest⟩ := h
      subst hk
      by_cases h0 : k0' = k
      · simp [lookupMember, h0, hd]
      · simp only [lookupMember, if_neg h0]
        exact ih rest' hrest

theorem findProj_dir_congr (t t' : Tree) (h : topo t' = topo t) (dep : String) :
    (findProj t' dep).map Proj.dir = (findProj t dep).map Proj.dir := by
  have h1 : t'.name = t.name := congrArg Prod.fst h
  have h2 : t'.root.dir = t.root.dir := congrArg (fun x => x.2.1) h
  have h3 : t'.members.map (fun m => (m.1, m.2.dir)) =
      t.members.map (fun m => (m.1, m.2.dir)) := congrArg (fun x => x.2.2) h
  unfold findProj
  rw [h1]
  by_cases hd : dep = t.name
  · simp [hd, h2]
  · simp only [if_neg hd]
    exact lookupMember_dir_congr dep t.members t'.members h3

theorem rewriteDep_congr (t t' : Tree) (h : topo t' = topo t) (sd : List String)
    (dep : String) : rewriteDep t' sd dep = rewriteDep t sd dep := by
  have hmap := findProj_dir_congr t t' h (parse_dependency_name dep)
  simp only [rewriteDep]
  cases h1 : findProj t (parse_dependency_name dep) with
  | none =>
    rw [h1] at hmap
    cases h2 : findProj t' (parse_dependency_name dep) with
    | none => rfl
    | some p => rw [h2] at hmap; cases hmap
  | some p =>
    rw [h1] at hmap
    cases h2 : findProj t' (parse_dependency_name dep) with
    | none => rw [h2] at hmap; cases hmap
    | some p' =>
      rw [h2] at hmap
      have hdir : p'.dir = p.dir := Option.some.inj hmap
      simp [hdir]

theorem rewriteDeps_congr (t t' : Tree) (h : topo t' = topo t) (sd : List String) :
    ∀ vs : List Val, rewriteDeps t' sd vs = rewriteDeps t sd vs := by
  intro vs
  induction vs with
  | nil => rfl
  | cons v rest ih =>
    cases v with
    | str dep => simp only [rewriteDeps, rewriteDep_congr t t' h sd dep, ih]
    | vNone => simp only [rewriteDeps, ih]
    | int n0 => simp only [rewriteDeps, ih]
    | bool b0 => simp only [rewriteDeps, ih]
    | arr a0 => simp only [rewriteDeps, ih]
    | table kv => simp only [rewriteDeps, ih]

theorem namesOK_congr (t t' : Tree) (h : topo t' = topo t) : namesOK t' = namesOK t := by
  have h1 : t'.name = t.name := congrArg Prod.fst h
  have h3 : t'.members.map (fun m => (m.1, m.2.dir)) =
      t.members.map (fun m => (m.1, m.2.dir)) := congrArg (fun x => x.2.2) h
  have e : ∀ ms : List (String × Proj), (ms.all fun m => nameOK m.1) =
      ((ms.map fun m => (m.1, m.2.dir)).all fun q => nameOK q.1) := by
    intro ms
    induction ms with
    | nil => rfl
    | cons m0 rest ih => simp [List.all_cons, ih]
  simp only [namesOK, h1, e, h3]

theorem lookupMember_some_name {k : String} {p : Proj} :
    ∀ {ms : List (String × Proj)}, lookupMember k ms = some p → ∃ m ∈ ms, m.1 = k := by
  intro ms
  induction ms with
  | nil => intro h; cases h
  | cons m0 rest ih =>
    intro h
    obtain ⟨k0, p0⟩ := m0
    by_cases h0 : k0 = k
    · exact ⟨(k0, p0), List.mem_cons_self _ _, h0⟩
    · simp only [lookupMember, if_neg h0] at h
      obtain ⟨m, hm, hk⟩ := ih h
      exact ⟨m, List.mem_cons_of_mem _ hm, hk⟩

theorem findProj_nameOK {t : Tree} {dep : String} {p : Proj}
    (hn : namesOK t = true) (h : findProj t dep = some p) : nameOK dep = true := by
  simp only [namesOK, Bool.and_eq_true] at hn
  unfold findProj at h
  by_cases hd : dep = t.name
  · exact hd ▸ hn.1
  · rw [if_neg hd] at h
    obtain ⟨m, hm, hk⟩ := lookupMember_some_name h
    have hmn := List.all_eq_true.mp hn.2 m hm
    exact hk ▸ hmn

theorem rewriteDep_none_eq {t : Tree} {sd : List String} {dep d' : String}
    (h : rewriteDep t sd dep = (d', none)) : d' = dep := by
  simp only [rewriteDep] at h
  cases hq : findProj t (parse_dependency_name dep) with
  | none =>
    rw [hq] at h
    simp only [Prod.mk.injEq] at h
    exact h.1.symm
  | some q => rw [hq] at h; simp at h

/-- Rewriting an already-rewritten dependency entry reproduces it with the
same recognized member name. -/
theorem rewriteDep_stable (t : Tree) (sd : List String) (dep dep' n : String)
    (hn : namesOK t = true) (h : rewriteDep t sd dep = (dep', some n)) :
    rewriteDep t sd dep' = (dep', some n) := by
  have hx := h
  simp only [rewriteDep] at hx
  cases hq : findProj t (parse_dependency_name dep) with
  | none => rw [hq] at hx; simp at hx
  | some q =>
    rw [hq] at hx
    simp only [Prod.mk.injEq, Option.some.injEq] at hx
    obtain ⟨hd', hn'⟩ := hx
    rw [hn'] at hd' hq
    subst hd'
    have hok : nameOK n = true := findProj_nameOK hn hq
    simp only [nameOK, Bool.and_eq_true] at hok
    have hne : n.data ≠ [] := by
      intro hc
      rw [hc] at hok
      simp at hok
    have hall : ∀ c ∈ n.data, isNameChar c = true := List.all_eq_true.mp hok.2
    have hmd : memberDependency sd n q.dir =
        n ++ " @ file://" ++ ("$" ++ "\x7bPROJECT_ROOT\x7d/" ++ relpath q.dir sd) := by
      refine String.ext ?_
      simp [memberDependency, String.data_append, List.append_assoc]
    have hparse : parse_dependency_name (memberDependency sd n q.dir) = n := by
      rw [hmd]
      simp [parse_dependency_name, parseFileRef_rewritten n _ hne hall]
    simp [rewriteDep, hparse, hq]

/-- The dependency loop applied to its own output reproduces it, including
the collected member names. -/
theorem rewriteDeps_stable (t : Tree) (sd : List String) (hn : namesOK t = true) :
    ∀ vs : List Val, rewriteDeps t sd (rewriteDeps t sd vs).1 = rewriteDeps t sd vs := by
  intro vs
  induction vs with
  | nil => rfl
  | cons v rest ih =>
    cases v with
    | str dep =>
      cases hr : rewriteDep t sd dep with
      | mk d' r2 =>
        cases r2 with
        | some nm =>
          have hst := rewriteDep_stable t sd dep d' nm hn hr
          simp only [rewriteDeps, hr, hst, ih]
        | none =>
          obtain rfl := rewriteDep_none_eq hr
          simp only [rewriteDeps, hr, ih]
    | vNone => simp only [rewriteDeps, ih]
    | int n0 => simp only [rewriteDeps, ih]
    | bool b0 => simp only [rewriteDeps, ih]
    | arr a0 => simp only [rewriteDeps, ih]
    | table kv => simp only [rewriteDeps, ih]

theorem rewriteDeps_fst_length (t : Tree) (sd : List String) (vs : List Val) :
    (rewriteDeps t sd vs).1.length = vs.length := by
  induction vs with
  | nil => rfl
  | cons v rest ih =>
    cases v with
    | str dep =>
      cases hr : rewriteDep t sd dep with
      | mk d' r2 => cases r2 <;> simp [rewriteDeps, hr, ih]
    | vNone => simp [rewriteDeps, ih]
    | int n0 => simp [rewriteDeps, ih]
    | bool b0 => simp [rewriteDeps, ih]
    | arr a0 => simp [rewriteDeps, ih]
    | table kv => simp [rewriteDeps, ih]

/-- When the loop found no member dependency it rewrote nothing. -/
theorem rewriteDeps_nil_snd (t : Tree) (sd : List String) :
    ∀ vs : List Val, (rewriteDeps t sd vs).2 = [] → (rewriteDeps t sd vs).1 = vs := by
  intro vs
  induction vs with
  | nil => intro _; rfl
  | cons v rest ih =>
    intro h
    cases v with
    | str dep =>
      cases hr : rewriteDep t sd dep with
      | mk d' r2 =>
        cases r2 with
        | some nm => simp [rewriteDeps, hr] at h
        | none =>
          obtain rfl := rewriteDep_none_eq hr
          simp only [rewriteDeps, hr] at h ⊢
          simp only [List.cons.injEq, true_and]
          exact ih h
    | vNone =>
      simp only [rewriteDeps] at h ⊢
      simp only [List.cons.injEq, true_and]
      exact ih h
    | int n0 =>
      simp only [rewriteDeps] at h ⊢
      simp only [List.cons.injEq, true_and]
      exact ih h
    | bool b0 =>
      simp only [rewriteDeps] at h ⊢
      simp only [List.cons.injEq, true_and]
      exact ih h
    | arr a0 =>
      simp only [rewriteDeps] at h ⊢
      simp only [List.cons.injEq, true_and]
      exact ih h
    | table kv =>
      simp only [rewriteDeps] at h ⊢
      simp only [List.cons.injEq, true_and]
      exact ih h

/-- The dependency-rewriting phase of `_sync_member_project_dependencies`
(the `step` computation before the `tool.uv.sources` walk), named for
reasoning; definitionally the one inside
`sync_member_project_dependencies_doc`. -/
def depsStep (t : Tree) (sd : List String) (d : Table) : Table × List String :=
  match lookup "project" d with
  | some (.table p) =>
    match lookup "dependencies" p with
    | some (.arr deps) =>
      if deps.isEmpty then (d, [])
      else
        let r := rewriteDeps t sd deps
        (setKey "project" (.table (setKey "dependencies" (.arr r.1) p)) d, r.2)
    | _ => (d, [])
  | _ => (d, [])

theorem depsDoc_eq_step (t : Tree) (sd : List String) (d : Table) :
    sync_member_project_dependencies_doc t sd d =
      match sourcesWalk (!(depsStep t sd d).2.isEmpty) (depsStep t sd d).2
          (depsStep t sd d).1 ["tool", "uv", "sources"] with
      | some d2 => d2
      | none => (depsStep t sd d).1 := rfl

/-- Idempotence helper for the documents whose dependency phase finds no
member dependency (the `create = False` regime). -/
theorem depsDoc_A (t t' : Tree) (sd : List String) (d : Table)
    (hch : chainOK ["tool", "uv", "sources"] d = true)
    (hstep : depsStep t sd d = (d, []))
    (hstep' : ∀ X : Table, lookup "project" X = lookup "project" d →
      depsStep t' sd X = (X, [])) :
    sync_member_project_dependencies_doc t' sd (sync_member_project_dependencies_doc t sd d) =
      sync_member_project_dependencies_doc t sd d := by
  have hFd := depsDoc_eq_step t sd d
  rw [hstep] at hFd
  simp only [List.isEmpty_nil, Bool.not_true] at hFd
  cases hw : sourcesWalk false [] d ["tool", "uv", "sources"] with
  | none =>
    simp only [hw] at hFd
    rw [hFd, depsDoc_eq_step t' sd d, hstep' d rfl]
    simp [hw]
  | some X =>
    simp only [hw] at hFd
    have hpres : lookup "project" X = lookup "project" d :=
      sourcesWalk_preserves false [] d "tool" ["uv", "sources"] X hw "project" (by decide)
    obtain ⟨hcX, hwX⟩ := sourcesWalkF_idem ["tool", "uv", "sources"] d X hch hw
    rw [hFd, depsDoc_eq_step t' sd X, hstep' X hpres]
    rcases hwX with h2 | h2 <;> simp [h2]

/-- Per-document idempotence of the dependency synchronization: re-running it
(against any tree of the same topology) on its own output is a no-op. -/
theorem depsDoc_idem (t t' : Tree) (ht : topo t' = topo t) (sd : List String) (d : Table)
    (hn : namesOK t = true) (hch : chainOK ["tool", "uv", "sources"] d = true) :
    sync_member_project_dependencies_doc t' sd (sync_member_project_dependencies_doc t sd d) =
      sync_member_project_dependencies_doc t sd d := by
  cases hp : lookup "project" d with
  | none =>
    refine depsDoc_A t t' sd d hch (by simp [depsStep, hp]) ?_
    intro X hX
    rw [hp] at hX
    simp [depsStep, hX]
  | some w =>
    cases w with
    | vNone =>
      refine depsDoc_A t t' sd d hch (by simp [depsStep, hp]) ?_
      intro X hX
      rw [hp] at hX
      simp [depsStep, hX]
    | str s0 =>
      refine depsDoc_A t t' sd d hch (by simp [depsStep, hp]) ?_
      intro X hX
      rw [hp] at hX
      simp [depsStep, hX]
    | int n0 =>
      refine depsDoc_A t t' sd d hch (by simp [depsStep, hp]) ?_
      intro X hX
      rw [hp] at hX
      simp [depsStep, hX]
    | bool b0 =>
      refine depsDoc_A t t' sd d hch (by simp [depsStep, hp]) ?_
      intro X hX
      rw [hp] at hX
      simp [depsStep, hX]
    | arr a0 =>
      refine depsDoc_A t t' sd d hch (by simp [depsStep, hp]) ?_
      intro X hX
      rw [hp] at hX
      simp [depsStep, hX]
    | table p =>
      cases hd : lookup "dependencies" p with
      | none =>
        refine depsDoc_A t t' sd d hch (by simp [depsStep, hp, hd]) ?_
        intro X hX
        rw [hp] at hX
        simp [depsStep, hX, hd]
      | some u =>
        cases u with
        | vNone =>
          refine depsDoc_A t t' sd d hch (by simp [depsStep, hp, hd]) ?_
          intro X hX
          rw [hp] at hX
          simp [depsStep, hX, hd]
        | str s0 =>
          refine depsDoc_A t t' sd d hch (by simp [depsStep, hp, hd]) ?_
          intro X hX
          rw [hp] at hX
          simp [depsStep, hX, hd]
        | int n0 =>
          refine depsDoc_A t t' sd d hch (by simp [depsStep, hp, hd]) ?_
          intro X hX
          rw [hp] at hX
          simp [depsStep, hX, hd]
        | bool b0 =>
          refine depsDoc_A t t' sd d hch (by simp [depsStep, hp, hd]) ?_
          intro X hX
          rw [hp] at hX
          simp [depsStep, hX, hd]
        | table q0 =>
          refine depsDoc_A t t' sd d hch (by simp [depsStep, hp, hd]) ?_
          intro X hX
          rw [hp] at hX
          simp [depsStep, hX, hd]
        | arr deps =>
          cases deps with
          | nil =>
            refine depsDoc_A t t' sd d hch (by simp [depsStep, hp, hd]) ?_
            intro X hX
            rw [hp] at hX
            simp [depsStep, hX, hd]
          | cons v0 vrest =>
            cases hre : (rewriteDeps t sd (v0 :: vrest)).2 with
            | nil =>
              have hr1 : (rewriteDeps t sd (v0 :: vrest)).1 = v0 :: vrest :=
                rewriteDeps_nil_snd t sd _ hre
              refine depsDoc_A t t' sd d hch ?_ ?_
              · simp only [depsStep, hp, hd, List.isEmpty_cons, Bool.false_eq_true,
                  if_false, hr1, hre]
                rw [setKey_same "dependencies" _ p hd, setKey_same "project" _ d hp]
              · intro X hX
                rw [hp] at hX
                have hcg : rewriteDeps t' sd (v0 :: vrest) = rewriteDeps t sd (v0 :: vrest) :=
                  rewriteDeps_congr t t' ht sd _
                simp only [depsStep, hX, hd, List.isEmpty_cons, Bool.false_eq_true,
                  if_false, hcg, hr1, hre]
                rw [setKey_same "dependencies" _ p hd, setKey_same "project" _ X hX]
            | cons n0 ns =>
              have hcd1 : chainOK ["tool", "uv", "sources"]
                  (setKey "project" (.table (setKey "dependencies"
                    (.arr (rewriteDeps t sd (v0 :: vrest)).1) p)) d) = true :=
                chainOK_setKey_ne "project" _ (by decide) hch
              have hFd := depsDoc_eq_step t sd d
              have hstep : depsStep t sd d =
                  (setKey "project" (.table (setKey "dependencies"
                    (.arr (rewriteDeps t sd (v0 :: vrest)).1) p)) d, n0 :: ns) := by
                simp [depsStep, hp, hd, hre]
              rw [hstep] at hFd
              simp only [List.isEmpty_cons, Bool.not_false] at hFd
              obtain ⟨X, hw⟩ : ∃ X, sourcesWalk true (n0 :: ns)
                  (setKey "project" (.table (setKey "dependencies"
                    (.arr (rewriteDeps t sd (v0 :: vrest)).1) p)) d)
                  ["tool", "uv", "sources"] = some X :=
                Option.isSome_iff_exists.mp (sourcesWalk_some_of_create (n0 :: ns)
                  ["tool", "uv", "sources"] _)
              simp only [hw] at hFd
              obtain ⟨hcX, hwX⟩ := sourcesWalkT_idem (n0 :: ns) (List.cons_ne_nil n0 ns)
                ["tool", "uv", "sources"] _ X hcd1 hw
              have hpX : lookup "project" X = some (.table (setKey "dependencies"
                  (.arr (rewriteDeps t sd (v0 :: vrest)).1) p)) := by
                rw [sourcesWalk_preserves true (n0 :: ns) _ "tool" ["uv", "sources"]
                  X hw "project" (by decide)]
                exact lookup_setKey_self _ _ _
              have hdX : lookup "dependencies" (setKey "dependencies"
                  (.arr (rewriteDeps t sd (v0 :: vrest)).1) p) =
                  some (.arr (rewriteDeps t sd (v0 :: vrest)).1) :=
                lookup_setKey_self _ _ _
              obtain ⟨u0, us, hu⟩ : ∃ u0 us, (rewriteDeps t sd (v0 :: vrest)).1 = u0 :: us := by
                have hl := rewriteDeps_fst_length t sd (v0 :: vrest)
                cases hc : (rewriteDeps t sd (v0 :: vrest)).1 with
                | nil => rw [hc] at hl; simp at hl
                | cons a b => exact ⟨a, b, rfl⟩
              have hstab : rewriteDeps t sd (rewriteDeps t sd (v0 :: vrest)).1 =
                  rewriteDeps t sd (v0 :: vrest) := rewriteDeps_stable t sd hn _
              have hcongr : rewriteDeps t' sd (rewriteDeps t sd (v0 :: vrest)).1 =
                  rewriteDeps t sd (rewriteDeps t sd (v0 :: vrest)).1 :=
                rewriteDeps_congr t t' ht sd _
              have hstep' : depsStep t' sd X = (X, n0 :: ns) := by
                simp only [depsStep, hpX, hdX]
                rw [hu]
                simp only [List.isEmpty_cons, Bool.false_eq_true, if_false]
                rw [← hu, hcongr, hstab]
                rw [setKey_same "dependencies" _ _ hdX, setKey_same "project" _ X hpX, hre]
              rw [hFd, depsDoc_eq_step t' sd X, hstep']
              simp only [List.isEmpty_cons, Bool.not_false, hwX]

/-! ## Idempotence of the individual operations at tree level -/

theorem sync_version_doc_idem (V : String) (d : Table) :
    (sync_version_doc V (sync_version_doc V d).1).1 = (sync_version_doc V d).1 := by
  cases hp : lookup "project" d with
  | none => simp [sync_version_doc, hp]
  | some w =>
    cases w with
    | table p =>
      by_cases he : pyEqStr (lookup "version" p) V = true
      · simp [sync_version_doc, hp, he]
      · simp only [sync_version_doc, hp]
        rw [if_neg he]
        simp [sync_version_doc, lookup_setKey_self, pyEqStr]
    | vNone => simp [sync_version_doc, hp]
    | str s0 => simp [sync_version_doc, hp]
    | int n0 => simp [sync_version_doc, hp]
    | bool b0 => simp [sync_version_doc, hp]
    | arr a0 => simp [sync_version_doc, hp]

/-- Applying one document transform after another over the member map, when
the second absorbs into the first pointwise. -/
theorem map_doc_idem (f g : Table → Table) (h : ∀ d, g (f d) = f d) :
    ∀ ms : List (String × Proj),
      (ms.map fun m => (m.1, { m.2 with doc := f m.2.doc })).map
        (fun m => (m.1, { m.2 with doc := g m.2.doc })) =
      ms.map fun m => (m.1, { m.2 with doc := f m.2.doc }) := by
  intro ms
  induction ms with
  | nil => rfl
  | cons m rest ih =>
    simp only [List.map_cons, ih, List.cons.injEq, and_true]
    rw [h]

/-- The version operation is idempotent (unconditionally). -/
theorem sync_version_idem (V : String) (t : Tree) :
    sync_version V (sync_version V t) = sync_version V t := by
  simp only [sync_version]
  congr 1
  · simp [sync_version_doc_idem]
  · exact map_doc_idem (fun d => (sync_version_doc V d).1)
      (fun d => (sync_version_doc V d).1) (fun d => sync_version_doc_idem V d) t.members

/-- The build-system propagation is idempotent (unconditionally): the root —
where the section is read — is never written by it. -/
theorem sync_build_system_idem (t : Tree) :
    sync_build_system (sync_build_system t) = sync_build_system t := by
  by_cases hv : pyTruthy ((lookup "build-system" t.root.doc).getD (Val.table [])) = true
  · have h1 : sync_build_system t =
        { t with members := t.members.map fun m =>
          (m.1, { m.2 with doc := setKey "build-system" ((lookup "build-system" t.root.doc).getD (Val.table [])) m.2.doc }) } := by
      simp only [sync_build_system]
      rw [if_pos hv]
    rw [h1]
    simp only [sync_build_system]
    rw [if_pos hv]
    congr 1
    exact map_doc_idem
      (fun d => setKey "build-system" ((lookup "build-system" t.root.doc).getD (Val.table [])) d)
      (fun d => setKey "build-system" ((lookup "build-system" t.root.doc).getD (Val.table [])) d)
      (fun d => setKey_setKey "build-system" _ _ d) t.members
  · have h1 : sync_build_system t = t := by
      simp only [sync_build_system]
      rw [if_neg hv]
    rw [h1]
    exact h1

/-- The shared-tool propagation is idempotent when the propagated
`tool.member-project` table has unique keys at every level (`deepcopy` of a
parsed TOML table always does). -/
theorem sync_member_project_tool_idem (t : Tree)
    (hmp : nodupDeepV (memberProjectData t.root.doc) = true) :
    sync_member_project_tool (sync_member_project_tool t) = sync_member_project_tool t := by
  by_cases hv : pyTruthy (memberProjectData t.root.doc) = true
  · cases hmpv : memberProjectData t.root.doc with
    | table mpt =>
      have hnd : nodupDeepT mpt = true := by
        rw [hmpv] at hmp
        simpa [nodupDeepV] using hmp
      have h1 : sync_member_project_tool t =
          { t with members := t.members.map fun m =>
            (m.1, { m.2 with doc := mergeTable m.2.doc mpt }) } := by
        simp only [sync_member_project_tool]
        rw [if_pos hv]
        simp only [hmpv]
      rw [h1]
      simp only [sync_member_project_tool]
      rw [if_pos hv]
      simp only [hmpv]
      congr 1
      exact map_doc_idem (fun d => mergeTable d mpt) (fun d => mergeTable d mpt)
        (fun d => mergeTable_absorb mpt hnd d) t.members
    | vNone =>
      have h1 : sync_member_project_tool t = t := by simp [sync_member_project_tool, hmpv]
      rw [h1]
      exact h1
    | str s0 =>
      have h1 : sync_member_project_tool t = t := by simp [sync_member_project_tool, hmpv]
      rw [h1]
      exact h1
    | int n0 =>
      have h1 : sync_member_project_tool t = t := by simp [sync_member_project_tool, hmpv]
      rw [h1]
      exact h1
    | bool b0 =>
      have h1 : sync_member_project_tool t = t := by simp [sync_member_project_tool, hmpv]
      rw [h1]
      exact h1
    | arr a0 =>
      have h1 : sync_member_project_tool t = t := by simp [sync_member_project_tool, hmpv]
      rw [h1]
      exact h1
  · have h1 : sync_member_project_tool t = t := by
      simp only [sync_member_project_tool]
      rw [if_neg hv]
    rw [h1]
    exact h1

/-- The dependency synchronization is idempotent at tree level, given sound
`tool.uv.sources` chains in every document and regex-class project names. -/
theorem sync_member_project_dependencies_idem (t : Tree)
    (hn : namesOK t = true)
    (hchr : chainOK ["tool", "uv", "sources"] t.root.doc = true)
    (hchm : ∀ m ∈ t.members, chainOK ["tool", "uv", "sources"] m.2.doc = true) :
    sync_member_project_dependencies (sync_member_project_dependencies t) =
      sync_member_project_dependencies t := by
  have ht : topo (sync_member_project_dependencies t) = topo t :=
    topo_sync_member_project_dependencies t
  have hmm : ∀ ms : List (String × Proj),
      (∀ m ∈ ms, chainOK ["tool", "uv", "sources"] m.2.doc = true) →
      (ms.map fun m =>
          (m.1, { m.2 with doc := sync_member_project_dependencies_doc t m.2.dir m.2.doc })).map
        (fun m => (m.1, { m.2 with doc := (sync_member_project_dependencies_doc (sync_member_project_dependencies t) m.2.dir m.2.doc) })) =
      ms.map fun m =>
        (m.1, { m.2 with doc := sync_member_project_dependencies_doc t m.2.dir m.2.doc }) := by
    intro ms
    induction ms with
    | nil => intro _; rfl
    | cons m rest ih =>
      intro hms
      simp only [List.map_cons, List.cons.injEq]
      refine ⟨?_, ih fun q hq => hms q (List.mem_cons_of_mem _ hq)⟩
      exact congrArg (fun x => (m.1, ({ dir := m.2.dir, doc := x } : Proj)))
        (depsDoc_idem t _ ht m.2.dir m.2.doc hn (hms m (List.mem_cons_self _ _)))
  simp only [sync_member_project_dependencies]
  congr 1
  · exact congrArg (fun x => ({ dir := t.root.dir, doc := x } : Proj))
      (depsDoc_idem t _ ht t.root.dir t.root.doc hn hchr)
  · exact hmm t.members hchm

/-! ## Support for the combined-run idempotence -/

/-- The document's version is settled: if a `project` table is present, its
`version` equals the computed version (so `sync_version` will not write). -/
def verDone (V : String) (d : Table) : Bool :=
  match lookup "project" d with
  | some (.table p) => pyEqStr (lookup "version" p) V
  | _ => true

theorem verDoc_verDone (V : String) (d : Table) :
    verDone V (sync_version_doc V d).1 = true := by
  cases hp : lookup "project" d with
  | none => simp [sync_version_doc, hp, verDone]
  | some w =>
    cases w with
    | table p =>
      by_cases he : pyEqStr (lookup "version" p) V = true
      · simp [sync_version_doc, hp, he, verDone]
      · simp only [sync_version_doc, hp]
        rw [if_neg he]
        simp [verDone, lookup_setKey_self, pyEqStr]
    | vNone => simp [sync_version_doc, hp, verDone]
    | str s0 => simp [sync_version_doc, hp, verDone]
    | int n0 => simp [sync_version_doc, hp, verDone]
    | bool b0 => simp [sync_version_doc, hp, verDone]
    | arr a0 => simp [sync_version_doc, hp, verDone]

theorem verDoc_noop (V : String) (d : Table) (h : verDone V d = true) :
    (sync_version_doc V d).1 = d := by
  unfold verDone at h
  cases hp : lookup "project" d with
  | none => simp [sync_version_doc, hp]
  | some w =>
    rw [hp] at h
    cases w with
    | table p =>
      have h2 : pyEqStr (lookup "version" p) V = true := h
      simp [sync_version_doc, hp, h2]
    | vNone => simp [sync_version_doc, hp]
    | str s0 => simp [sync_version_doc, hp]
    | int n0 => simp [sync_version_doc, hp]
    | bool b0 => simp [sync_version_doc, hp]
    | arr a0 => simp [sync_version_doc, hp]

theorem verDone_setKey_ne (V : String) (k : String) (v : Val) (d : Table)
    (hk : k ≠ "project") (h : verDone V d = true) : verDone V (setKey k v d) = true := by
  unfold verDone at h ⊢
  rw [lookup_setKey_ne "project" k v d fun hh => hk hh.symm]
  exact h

theorem verDone_merge (V : String) (d s : Table) (hs : "project" ∉ keys s)
    (h : verDone V d = true) : verDone V (mergeTable d s) = true := by
  unfold verDone at h ⊢
  rw [mergeTable_lookup_not_mem s d "project" hs]
  exact h

theorem depsDoc_verDone (V : String) (t : Tree) (sd : List String) (d : Table)
    (h : verDone V d = true) :
    verDone V (sync_member_project_dependencies_doc t sd d) = true := by
  have hstep : verDone V (depsStep t sd d).1 = true := by
    cases hp : lookup "project" d with
    | none => simpa [depsStep, hp] using h
    | some w =>
      cases w with
      | table p =>
        cases hd : lookup "dependencies" p with
        | none => simpa [depsStep, hp, hd] using h
        | some u =>
          cases u with
          | arr deps =>
            cases deps with
            | nil => simpa [depsStep, hp, hd] using h
            | cons v0 vrest =>
              simp only [depsStep, hp, hd, List.isEmpty_cons, Bool.false_eq_true, if_false]
              unfold verDone at h
              rw [hp] at h
              have h2 : pyEqStr (lookup "version" p) V = true := h
              simp only [verDone, lookup_setKey_self]
              rw [lookup_setKey_ne "version" "dependencies" _ p (by decide)]
              exact h2
          | vNone => simpa [depsStep, hp, hd] using h
          | str s0 => simpa [depsStep, hp, hd] using h
          | int n0 => simpa [depsStep, hp, hd] using h
          | bool b0 => simpa [depsStep, hp, hd] using h
          | table q0 => simpa [depsStep, hp, hd] using h
      | vNone => simpa [depsStep, hp] using h
      | str s0 => simpa [depsStep, hp] using h
      | int n0 => simpa [depsStep, hp] using h
      | bool b0 => simpa [depsStep, hp] using h
      | arr a0 => simpa [depsStep, hp] using h
  rw [depsDoc_eq_step]
  cases hw : sourcesWalk (!(depsStep t sd d).2.isEmpty) (depsStep t sd d).2
      (depsStep t sd d).1 ["tool", "uv", "sources"] with
  | none => exact hstep
  | some X =>
    show verDone V X = true
    have hpres := sourcesWalk_preserves _ _ _ "tool" ["uv", "sources"] X hw "project" (by decide)
    unfold verDone at hstep ⊢
    rw [hpres]
    exact hstep

theorem verDoc_lookup_ne (V : String) (d : Table) (k : String) (hk : k ≠ "project") :
    lookup k (sync_version_doc V d).1 = lookup k d := by
  cases hp : lookup "project" d with
  | none => simp [sync_version_doc, hp]
  | some w =>
    cases w with
    | table p =>
      by_cases he : pyEqStr (lookup "version" p) V = true
      · simp [sync_version_doc, hp, he]
      · simp only [sync_version_doc, hp]
        rw [if_neg he]
        exact lookup_setKey_ne k "project" _ d hk
    | vNone => simp [sync_version_doc, hp]
    | str s0 => simp [sync_version_doc, hp]
    | int n0 => simp [sync_version_doc, hp]
    | bool b0 => simp [sync_version_doc, hp]
    | arr a0 => simp [sync_version_doc, hp]

theorem depsDoc_lookup_ne (t : Tree) (sd : List String) (d : Table) (k : String)
    (hk1 : k ≠ "tool") (hk2 : k ≠ "project") :
    lookup k (sync_member_project_dependencies_doc t sd d) = lookup k d := by
  have hstep : lookup k (depsStep t sd d).1 = lookup k d := by
    cases hp : lookup "project" d with
    | none => simp [depsStep, hp]
    | some w =>
      cases w with
      | table p =>
        cases hd : lookup "dependencies" p with
        | none => simp [depsStep, hp, hd]
        | some u =>
          cases u with
          | arr deps =>
            cases deps with
            | nil => simp [depsStep, hp, hd]
            | cons v0 vrest =>
              simp only [depsStep, hp, hd, List.isEmpty_cons, Bool.false_eq_true, if_false]
              exact lookup_setKey_ne k "project" _ d hk2
          | vNone => simp [depsStep, hp, hd]
          | str s0 => simp [depsStep, hp, hd]
          | int n0 => simp [depsStep, hp, hd]
          | bool b0 => simp [depsStep, hp, hd]
          | table q0 => simp [depsStep, hp, hd]
      | vNone => simp [depsStep, hp]
      | str s0 => simp [depsStep, hp]
      | int n0 => simp [depsStep, hp]
      | bool b0 => simp [depsStep, hp]
      | arr a0 => simp [depsStep, hp]
  rw [depsDoc_eq_step]
  cases hw : sourcesWalk (!(depsStep t sd d).2.isEmpty) (depsStep t sd d).2
      (depsStep t sd d).1 ["tool", "uv", "sources"] with
  | none => exact hstep
  | some X =>
    show lookup k X = lookup k d
    rw [sourcesWalk_preserves _ _ _ "tool" ["uv", "sources"] X hw k hk1]
    exact hstep

theorem chainOK_depsStep (t : Tree) (sd : List String) (d : Table)
    (hch : chainOK ["tool", "uv", "sources"] d = true) :
    chainOK ["tool", "uv", "sources"] (depsStep t sd d).1 = true := by
  cases hp : lookup "project" d with
  | none => simpa [depsStep, hp] using hch
  | some w =>
    cases w with
    | table p =>
      cases hd : lookup "dependencies" p with
      | none => simpa [depsStep, hp, hd] using hch
      | some u =>
        cases u with
        | arr deps =>
          cases deps with
          | nil => simpa [depsStep, hp, hd] using hch
          | cons v0 vrest =>
            simp only [depsStep, hp, hd, List.isEmpty_cons, Bool.false_eq_true, if_false]
            exact chainOK_setKey_ne "project" _ (by decide) hch
        | vNone => simpa [depsStep, hp, hd] using hch
        | str s0 => simpa [depsStep, hp, hd] using hch
        | int n0 => simpa [depsStep, hp, hd] using hch
        | bool b0 => simpa [depsStep, hp, hd] using hch
        | table q0 => simpa [depsStep, hp, hd] using hch
    | vNone => simpa [depsStep, hp] using hch
    | str s0 => simpa [depsStep, hp] using hch
    | int n0 => simpa [depsStep, hp] using hch
    | bool b0 => simpa [depsStep, hp] using hch
    | arr a0 => simpa [depsStep, hp] using hch

theorem mpd_setKey_ne (k : String) (v : Val) (d : Table) (hk : k ≠ "tool") :
    memberProjectData (setKey k v d) = memberProjectData d := by
  unfold memberProjectData
  rw [lookup_setKey_ne "tool" k v d fun hh => hk hh.symm]

theorem mpd_merge (d s : Table) (hs : "tool" ∉ keys s) :
    memberProjectData (mergeTable d s) = memberProjectData d := by
  unfold memberProjectData
  rw [mergeTable_lookup_not_mem s d "tool" hs]

theorem removeKey_eq_nil {k : String} {d : Table} (h : removeKey k d = []) :
    d = [] ∨ ∃ v, d = [(k, v)] := by
  cases d with
  | nil => exact Or.inl rfl
  | cons hd tl =>
    obtain ⟨k0, v0⟩ := hd
    by_cases h0 : k0 = k
    · subst h0
      simp only [removeKey, if_pos rfl] at h
      subst h
      exact Or.inr ⟨v0, rfl⟩
    · simp only [removeKey, if_neg h0] at h
      cases h

theorem sourcesWalk_nil_out (c : Bool) (md : List String) (tbl : Table) (k : String)
    (rest : List String) (h : sourcesWalk c md tbl (k :: rest) = some []) :
    tbl = [] ∨ ∃ v, tbl = [(k, v)] := by
  simp only [sourcesWalk] at h
  split at h
  next sub heq =>
    split at h
    next sub' hr =>
      have he := Option.some.inj h
      by_cases hemp : sub'.isEmpty = true
      · rw [if_pos hemp] at he
        exact removeKey_eq_nil he
      · rw [if_neg hemp] at he
        exact absurd he (setKey_ne_nil _ _ _)
    next hr => cases h
  next w hne hl =>
    split at h
    · exact removeKey_eq_nil (Option.some.inj h)
    · cases h
  next heq =>
    split at h
    · split at h
      next sub' hr =>
        have he := Option.some.inj h
        by_cases hemp : sub'.isEmpty = true
        · rw [if_pos hemp] at he
          exact Or.inl he
        · rw [if_neg hemp] at he
          exact absurd he (setKey_ne_nil _ _ _)
      next hr => cases h
    · cases h

theorem sourcesWalk_cons_eq (c : Bool) (md : List String) (tbl : Table) (k : String)
    (rest : List String) :
    sourcesWalk c md tbl (k :: rest) =
      match lookup k tbl with
      | some (.table sub) =>
        match sourcesWalk c md sub rest with
        | some sub' =>
          some (if sub'.isEmpty then removeKey k tbl else setKey k (.table sub') tbl)
        | none => none
      | some _ => if c then some (removeKey k tbl) else none
      | none =>
        if c then
          match sourcesWalk c md [] rest with
          | some sub' => some (if sub'.isEmpty then tbl else setKey k (.table sub') tbl)
          | none => none
        else none := rfl

theorem mpd_walk {c : Bool} {md : List String} {tbl X : Table}
    (hch : chainOK ["tool", "uv", "sources"] tbl = true)
    (hw : sourcesWalk c md tbl ["tool", "uv", "sources"] = some X) :
    memberProjectData X = memberProjectData tbl := by
  rw [sourcesWalk_cons_eq] at hw
  split at hw
  next sub heq =>
    split at hw
    next sub' hr =>
      obtain rfl := Option.some.inj hw
      by_cases hemp : sub'.isEmpty = true
      · rw [if_pos hemp]
        have hsub : sub = [] ∨ ∃ v, sub = [("uv", v)] := by
          have hr2 := hr
          rw [List.isEmpty_iff.mp hemp] at hr2
          exact sourcesWalk_nil_out c md sub "uv" ["sources"] hr2
        have hmp : lookup "member-project" sub = none := by
          rcases hsub with rfl | ⟨v, rfl⟩
          · rfl
          · rfl
        simp [memberProjectData, lookup_removeKey_self "tool" tbl (chainOK_nodup hch),
          heq, hmp]
      · rw [if_neg hemp]
        have hpres := sourcesWalk_preserves c md sub "uv" ["sources"] sub' hr
          "member-project" (by decide)
        simp [memberProjectData, lookup_setKey_self, heq, hpres]
    next hr => cases hw
  next w hne hl =>
    exfalso
    have h2 : chainOK (["tool", "uv", "sources"] : List String) tbl = true := hch
    simp only [chainOK, Bool.and_eq_true] at h2
    have h3 := h2.2
    rw [hl] at h3
    cases w with
    | table sub => exact hne sub rfl
    | vNone => simp at h3
    | str s0 => simp at h3
    | int n0 => simp at h3
    | bool b0 => simp at h3
    | arr a0 => simp at h3
  next heq =>
    split at hw
    · split at hw
      next sub' hr =>
        obtain rfl := Option.some.inj hw
        by_cases hemp : sub'.isEmpty = true
        · rw [if_pos hemp]
        · rw [if_neg hemp]
          have hpres := sourcesWalk_preserves c md [] "uv" ["sources"] sub' hr
            "member-project" (by decide)
          simp [memberProjectData, lookup_setKey_self, heq, hpres, lookup]
      next hr => cases hw
    · cases hw

theorem mpd_depsDoc (t : Tree) (sd : List String) (d : Table)
    (hch : chainOK ["tool", "uv", "sources"] d = true) :
    memberProjectData (sync_member_project_dependencies_doc t sd d) = memberProjectData d := by
  have hstep : memberProjectData (depsStep t sd d).1 = memberProjectData d := by
    cases hp : lookup "project" d with
    | none => simp [depsStep, hp]
    | some w =>
      cases w with
      | table p =>
        cases hd : lookup "dependencies" p with
        | none => simp [depsStep, hp, hd]
        | some u =>
          cases u with
          | arr deps =>
            cases deps with
            | nil => simp [depsStep, hp, hd]
            | cons v0 vrest =>
              simp only [depsStep, hp, hd, List.isEmpty_cons, Bool.false_eq_true, if_false]
              exact mpd_setKey_ne "project" _ d (by decide)
          | vNone => simp [depsStep, hp, hd]
          | str s0 => simp [depsStep, hp, hd]
          | int n0 => simp [depsStep, hp, hd]
          | bool b0 => simp [depsStep, hp, hd]
          | table q0 => simp [depsStep, hp, hd]
      | vNone => simp [depsStep, hp]
      | str s0 => simp [depsStep, hp]
      | int n0 => simp [depsStep, hp]
      | bool b0 => simp [depsStep, hp]
      | arr a0 => simp [depsStep, hp]
  have hchs := chainOK_depsStep t sd d hch
  rw [depsDoc_eq_step]
  cases hw : sourcesWalk (!(depsStep t sd d).2.isEmpty) (depsStep t sd d).2
      (depsStep t sd d).1 ["tool", "uv", "sources"] with
  | none => exact hstep
  | some X =>
    show memberProjectData X = memberProjectData d
    rw [mpd_walk hchs hw]
    exact hstep

theorem mergeEntry_is_setKey (d : Table) (k : String) (v : Val) :
    ∃ w, mergeEntry d k v = setKey k w d := by
  cases v with
  | table sk =>
    cases hl : lookup k d with
    | some u =>
      cases u with
      | table dk => exact ⟨.table (mergeTable dk sk), mergeEntry_table_table d k dk sk hl⟩
      | vNone =>
        exact ⟨.table sk, mergeEntry_table_other d k sk
          (by intro dk hh; rw [hl] at hh; cases hh)⟩
      | str s0 =>
        exact ⟨.table sk, mergeEntry_table_other d k sk
          (by intro dk hh; rw [hl] at hh; cases hh)⟩
      | int n0 =>
        exact ⟨.table sk, mergeEntry_table_other d k sk
          (by intro dk hh; rw [hl] at hh; cases hh)⟩
      | bool b0 =>
        exact ⟨.table sk, mergeEntry_table_other d k sk
          (by intro dk hh; rw [hl] at hh; cases hh)⟩
      | arr a0 =>
        exact ⟨.table sk, mergeEntry_table_other d k sk
          (by intro dk hh; rw [hl] at hh; cases hh)⟩
    | none =>
      exact ⟨.table sk, mergeEntry_table_other d k sk
        (by intro dk hh; rw [hl] at hh; cases hh)⟩
  | vNone => exact ⟨_, mergeEntry_nontable d k _ fun sk hh => Val.noConfusion hh⟩
  | str s0 => exact ⟨_, mergeEntry_nontable d k _ fun sk hh => Val.noConfusion hh⟩
  | int n0 => exact ⟨_, mergeEntry_nontable d k _ fun sk hh => Val.noConfusion hh⟩
  | bool b0 => exact ⟨_, mergeEntry_nontable d k _ fun sk hh => Val.noConfusion hh⟩
  | arr a0 => exact ⟨_, mergeEntry_nontable d k _ fun sk hh => Val.noConfusion hh⟩

theorem nodup_mergeTable (s : Table) :
    ∀ d : Table, (keys d).Nodup → (keys (mergeTable d s)).Nodup := by
  induction s with
  | nil =>
    intro d hd
    rw [mergeTable_nil]
    exact hd
  | cons p rest ih =>
    intro d hd
    obtain ⟨k, v⟩ := p
    rw [mergeTable_cons]
    obtain ⟨w, hw⟩ := mergeEntry_is_setKey d k v
    refine ih _ ?_
    rw [hw]
    exact nodup_setKey k w d hd

theorem chainOK_merge (d s : Table) (hs : "tool" ∉ keys s) {rest : List String}
    (h : chainOK ("tool" :: rest) d = true) :
    chainOK ("tool" :: rest) (mergeTable d s) = true := by
  refine chainOK_cons_intro (nodup_mergeTable s d (chainOK_nodup h)) ?_
  rw [mergeTable_lookup_not_mem s d "tool" hs]
  simp only [chainOK, Bool.and_eq_true] at h
  have h3 := h.2
  cases hl : lookup "tool" d with
  | none => exact trivial
  | some w =>
    rw [hl] at h3
    cases w <;> first | exact h3 | simp at h3

theorem mergeTable_noop_of_fixed : ∀ (s e : Table),
    (∀ p ∈ s, match p.2 with
      | Val.table vt => ∃ w, lookup p.1 e = some (.table w) ∧ mergeTable w vt = w
      | v => lookup p.1 e = some v) →
    mergeTable e s = e := by
  intro s
  induction s with
  | nil =>
    intro e _
    rw [mergeTable_nil]
  | cons p rest ih =>
    intro e h
    obtain ⟨k, v⟩ := p
    rw [mergeTable_cons]
    have hk := h (k, v) (List.mem_cons_self _ _)
    have hstep : mergeEntry e k v = e := by
      cases v with
      | table vt =>
        obtain ⟨w, hw, hfix⟩ := hk
        rw [mergeEntry_table_table e k w vt hw, hfix]
        exact setKey_same k _ e hw
      | vNone =>
        rw [mergeEntry_nontable e k _ fun sk hh => Val.noConfusion hh]
        exact setKey_same k _ e hk
      | str s0 =>
        rw [mergeEntry_nontable e k _ fun sk hh => Val.noConfusion hh]
        exact setKey_same k _ e hk
      | int n0 =>
        rw [mergeEntry_nontable e k _ fun sk hh => Val.noConfusion hh]
        exact setKey_same k _ e hk
      | bool b0 =>
        rw [mergeEntry_nontable e k _ fun sk hh => Val.noConfusion hh]
        exact setKey_same k _ e hk
      | arr a0 =>
        rw [mergeEntry_nontable e k _ fun sk hh => Val.noConfusion hh]
        exact setKey_same k _ e hk
    rw [hstep]
    exact ih e fun q hq => h q (List.mem_cons_of_mem _ hq)

theorem mergeTable_lookup_fixed : ∀ s : Table, nodupDeepT s = true →
    ∀ (d : Table) (p : String × Val), p ∈ s →
      (match p.2 with
       | Val.table vt =>
         ∃ w, lookup p.1 (mergeTable d s) = some (.table w) ∧ mergeTable w vt = w
       | v => lookup p.1 (mergeTable d s) = some v) := by
  intro s
  induction s with
  | nil =>
    intro _ d p hp
    cases hp
  | cons q rest ih =>
    intro hnd d p hp
    obtain ⟨k, v⟩ := q
    obtain ⟨hk, hv, hrest⟩ := nodupDeepT_cons hnd
    rw [mergeTable_cons]
    rcases List.mem_cons.mp hp with heq | hp2
    · obtain rfl := heq
      have hnm : lookup k (mergeTable (mergeEntry d k v) rest) = lookup k (mergeEntry d k v) :=
        mergeTable_lookup_not_mem rest _ k hk
      cases v with
      | table vt =>
        have hndvt : nodupDeepT vt = true := by simpa [nodupDeepV] using hv
        cases hl : lookup k d with
        | some u =>
          cases u with
          | table dk =>
            refine ⟨mergeTable dk vt, ?_, mergeTable_absorb vt hndvt dk⟩
            rw [hnm, mergeEntry_table_table d k dk vt hl, lookup_setKey_self]
          | vNone =>
            refine ⟨vt, ?_, mergeTable_self vt hndvt⟩
            rw [hnm, mergeEntry_table_other d k vt
              (by intro dk hh; rw [hl] at hh; cases hh), lookup_setKey_self]
          | str s0 =>
            refine ⟨vt, ?_, mergeTable_self vt hndvt⟩
            rw [hnm, mergeEntry_table_other d k vt
              (by intro dk hh; rw [hl] at hh; cases hh), lookup_setKey_self]
          | int n0 =>
            refine ⟨vt, ?_, mergeTable_self vt hndvt⟩
            rw [hnm, mergeEntry_table_other d k vt
              (by intro dk hh; rw [hl] at hh; cases hh), lookup_setKey_self]
          | bool b0 =>
            refine ⟨vt, ?_, mergeTable_self vt hndvt⟩
            rw [hnm, mergeEntry_table_other d k vt
              (by intro dk hh; rw [hl] at hh; cases hh), lookup_setKey_self]
          | arr a0 =>
            refine ⟨vt, ?_, mergeTable_self vt hndvt⟩
            rw [hnm, mergeEntry_table_other d k vt
              (by intro dk hh; rw [hl] at hh; cases hh), lookup_setKey_self]
        | none =>
          refine ⟨vt, ?_, mergeTable_self vt hndvt⟩
          rw [hnm, mergeEntry_table_other d k vt
            (by intro dk hh; rw [hl] at hh; cases hh), lookup_setKey_self]
      | vNone =>
        rw [hnm]
        exact mergeEntry_lookup_self_nontable d k _ fun sk hh => Val.noConfusion hh
      | str s0 =>
        rw [hnm]
        exact mergeEntry_lookup_self_nontable d k _ fun sk hh => Val.noConfusion hh
      | int n0 =>
        rw [hnm]
        exact mergeEntry_lookup_self_nontable d k _ fun sk hh => Val.noConfusion hh
      | bool b0 =>
        rw [hnm]
        exact mergeEntry_lookup_self_nontable d k _ fun sk hh => Val.noConfusion hh
      | arr a0 =>
        rw [hnm]
        exact mergeEntry_lookup_self_nontable d k _ fun sk hh => Val.noConfusion hh
    · exact ih hrest (mergeEntry d k v) p hp2

theorem map_self {α : Type} (f : α → α) :
    ∀ l : List α, (∀ x ∈ l, f x = x) → l.map f = l := by
  intro l
  induction l with
  | nil => intro _; rfl
  | cons x xs ih =>
    intro h
    simp only [List.map_cons, h x (List.mem_cons_self _ _), List.cons.injEq, true_and]
    exact ih fun y hy => h y (List.mem_cons_of_mem _ hy)

theorem sync_version_noop (V : String) (t2 : Tree)
    (hr : verDone V t2.root.doc = true)
    (hm : ∀ m ∈ t2.members, verDone V m.2.doc = true) :
    sync_version V t2 = t2 := by
  simp only [sync_version]
  have h1 : ({ t2.root with doc := (sync_version_doc V t2.root.doc).1 } : Proj) = t2.root := by
    rw [verDoc_noop V _ hr]
  have h2 : t2.members.map
      (fun m => (m.1, { m.2 with doc := (sync_version_doc V m.2.doc).1 })) = t2.members := by
    refine map_self _ _ ?_
    intro m hmem
    rw [verDoc_noop V _ (hm m hmem)]
  rw [h1, h2]

theorem sync_build_system_noop (t2 : Tree)
    (hm : pyTruthy ((lookup "build-system" t2.root.doc).getD (Val.table [])) = true →
      ∀ m ∈ t2.members, setKey "build-system"
        ((lookup "build-system" t2.root.doc).getD (Val.table [])) m.2.doc = m.2.doc) :
    sync_build_system t2 = t2 := by
  simp only [sync_build_system]
  split
  next hv =>
    have h2 : t2.members.map (fun m => (m.1, { m.2 with doc := setKey "build-system" ((lookup "build-system" t2.root.doc).getD (Val.table [])) m.2.doc })) = t2.members := by
      refine map_self _ _ ?_
      intro m hmem
      rw [hm hv m hmem]
    rw [h2]
  next hv => rfl

theorem sync_member_project_tool_noop (t2 : Tree)
    (hm : ∀ mpt, memberProjectData t2.root.doc = Val.table mpt →
      ∀ m ∈ t2.members, mergeTable m.2.doc mpt = m.2.doc)
    (htb : pyTruthy (memberProjectData t2.root.doc) = true →
      ∃ mpt, memberProjectData t2.root.doc = Val.table mpt) :
    sync_member_project_tool t2 = t2 := by
  simp only [sync_member_project_tool]
  split
  next hv =>
    obtain ⟨mpt, hmpt⟩ := htb hv
    simp only [hmpt]
    have h2 : t2.members.map
        (fun m => (m.1, { m.2 with doc := mergeTable m.2.doc mpt })) = t2.members := by
      refine map_self _ _ ?_
      intro m hmem
      rw [hm mpt hmpt m hmem]
    rw [h2]
  next hv => rfl

/-- The per-document effect of `sync_build_system` on a member. -/
def bsApply (data : Val) (d : Table) : Table :=
  if pyTruthy data then setKey "build-system" data d else d

/-- The per-document effect of `sync_member_project_tool` on a member. -/
def toolApply (mp : Val) (d : Table) : Table :=
  if pyTruthy mp then
    match mp with
    | .table mpt => mergeTable d mpt
    | _ => d
  else d

theorem map_doc_id (ms : List (String × Proj)) :
    (ms.map fun m => (m.1, { m.2 with doc := m.2.doc })) = ms :=
  map_self _ ms fun _ _ => rfl

theorem bs_root (t2 : Tree) : (sync_build_system t2).root = t2.root := by
  simp only [sync_build_system]
  split
  · rfl
  · rfl

theorem tool_root (t2 : Tree) : (sync_member_project_tool t2).root = t2.root := by
  simp only [sync_member_project_tool]
  split
  · split <;> rfl
  · rfl

theorem bs_shape (t2 : Tree) : sync_build_system t2 =
    { t2 with members := t2.members.map fun m =>
      (m.1, { m.2 with doc := (bsApply ((lookup "build-system" t2.root.doc).getD (Val.table [])) m.2.doc) }) } := by
  simp only [sync_build_system, bsApply]
  by_cases hv : pyTruthy ((lookup "build-system" t2.root.doc).getD (Val.table [])) = true
  · simp [hv]
  · simp only [Bool.not_eq_true] at hv
    simp [hv, map_doc_id]

theorem tool_shape (t2 : Tree) : sync_member_project_tool t2 =
    { t2 with members := t2.members.map fun m =>
      (m.1, { m.2 with doc := (toolApply (memberProjectData t2.root.doc) m.2.doc) }) } := by
  simp only [sync_member_project_tool, toolApply]
  by_cases hv : pyTruthy (memberProjectData t2.root.doc) = true
  · cases hmp2 : memberProjectData t2.root.doc with
    | table mpt =>
      rw [hmp2] at hv
      simp [hv]
    | vNone =>
      rw [hmp2] at hv
      simp [hv, map_doc_id]
    | str s0 =>
      rw [hmp2] at hv
      simp [hv, map_doc_id]
    | int n0 =>
      rw [hmp2] at hv
      simp [hv, map_doc_id]
    | bool b0 =>
      rw [hmp2] at hv
      simp [hv, map_doc_id]
    | arr a0 =>
      rw [hmp2] at hv
      simp [hv, map_doc_id]
  · simp only [Bool.not_eq_true] at hv
    simp [hv, map_doc_id]

theorem mpd_verDoc (V : String) (d : Table) :
    memberProjectData (sync_version_doc V d).1 = memberProjectData d := by
  unfold memberProjectData
  rw [verDoc_lookup_ne V d "tool" (by decide)]

theorem chainOK_verDoc (V : String) (d : Table) {rest : List String}
    (h : chainOK ("tool" :: rest) d = true) :
    chainOK ("tool" :: rest) (sync_version_doc V d).1 = true := by
  cases hp : lookup "project" d with
  | none => simpa [sync_version_doc, hp] using h
  | some w =>
    cases w with
    | table p =>
      by_cases he : pyEqStr (lookup "version" p) V = true
      · simpa [sync_version_doc, hp, he] using h
      · simp only [sync_version_doc, hp]
        rw [if_neg he]
        exact chainOK_setKey_ne "project" _ (by decide) h
    | vNone => simpa [sync_version_doc, hp] using h
    | str s0 => simpa [sync_version_doc, hp] using h
    | int n0 => simpa [sync_version_doc, hp] using h
    | bool b0 => simpa [sync_version_doc, hp] using h
    | arr a0 => simpa [sync_version_doc, hp] using h

theorem map_ext {α β : Type} (f g : α → β) (h : ∀ a, f a = g a) :
    ∀ l : List α, l.map f = l.map g := by
  intro l
  induction l with
  | nil => rfl
  | cons x xs ih => simp only [List.map_cons, h x, ih]

theorem bs_members (t2 : Tree) : (sync_build_system t2).members =
    t2.members.map fun m =>
      (m.1, { m.2 with doc := (bsApply ((lookup "build-system" t2.root.doc).getD (Val.table [])) m.2.doc) }) := by
  rw [bs_shape t2]

theorem tool_members (t2 : Tree) : (sync_member_project_tool t2).members =
    t2.members.map fun m =>
      (m.1, { m.2 with doc := (toolApply (memberProjectData t2.root.doc) m.2.doc) }) := by
  rw [tool_shape t2]

theorem runAll_root (V : String) (t : Tree) :
    (runAll V t).root =
      { dir := t.root.dir,
        doc := (sync_member_project_dependencies_doc (sync_member_project_tool (sync_build_system (sync_version V t))) t.root.dir (sync_version_doc V t.root.doc).1) } := by
  have h1 : (runAll V t).root =
      { (sync_member_project_tool (sync_build_system (sync_version V t))).root with
        doc := (sync_member_project_dependencies_doc
          (sync_member_project_tool (sync_build_system (sync_version V t)))
          ((sync_member_project_tool (sync_build_system (sync_version V t))).root.dir)
          ((sync_member_project_tool (sync_build_system (sync_version V t))).root.doc)) } := rfl
  rw [h1, tool_root, bs_root]
  rfl

theorem runAll_members_shape (V : String) (t : Tree) :
    (runAll V t).members = t.members.map fun m =>
      (m.1, { m.2 with doc := (sync_member_project_dependencies_doc
        (sync_member_project_tool (sync_build_system (sync_version V t))) m.2.dir
        (toolApply (memberProjectData t.root.doc)
          (bsApply ((lookup "build-system" t.root.doc).getD (Val.table []))
            (sync_version_doc V m.2.doc).1))) }) := by
  have h1 : (runAll V t).members =
      (sync_member_project_tool (sync_build_system (sync_version V t))).members.map
        (fun m => (m.1, { m.2 with doc := (sync_member_project_dependencies_doc
          (sync_member_project_tool (sync_build_system (sync_version V t))) m.2.dir m.2.doc) })) := rfl
  have hroot : (sync_version V t).root.doc = (sync_version_doc V t.root.doc).1 := rfl
  have hmem : (sync_version V t).members =
      t.members.map (fun m => (m.1, { m.2 with doc := (sync_version_doc V m.2.doc).1 })) := rfl
  rw [h1, tool_members, bs_members, bs_root, hroot, mpd_verDoc,
    verDoc_lookup_ne V t.root.doc "build-system" (by decide), hmem]
  simp only [List.map_map]
  exact map_ext _ _ (fun m => rfl) t.members

theorem pyTruthy_table_false {kvs : Table} (h : pyTruthy (Val.table kvs) = false) :
    kvs = [] := by
  cases kvs with
  | nil => rfl
  | cons q rest => simp [pyTruthy] at h

theorem chainOK_pipeline (V : String) (data mp : Val) (d : Table)
    (hch : chainOK ["tool", "uv", "sources"] d = true)
    (hmp : ∀ mpt, mp = Val.table mpt → "tool" ∉ keys mpt) :
    chainOK ["tool", "uv", "sources"]
      (toolApply mp (bsApply data (sync_version_doc V d).1)) = true := by
  have h1 := chainOK_verDoc V d hch
  have h2 : chainOK ["tool", "uv", "sources"]
      (bsApply data (sync_version_doc V d).1) = true := by
    unfold bsApply
    split
    · exact chainOK_setKey_ne "build-system" data (by decide) h1
    · exact h1
  cases mp with
  | table mpt =>
    unfold toolApply
    split
    · exact chainOK_merge _ mpt (hmp mpt rfl) h2
    · exact h2
  | vNone =>
    unfold toolApply
    split
    · exact h2
    · exact h2
  | str s0 =>
    unfold toolApply
    split
    · exact h2
    · exact h2
  | int n0 =>
    unfold toolApply
    split
    · exact h2
    · exact h2
  | bool b0 =>
    unfold toolApply
    split
    · exact h2
    · exact h2
  | arr a0 =>
    unfold toolApply
    split
    · exact h2
    · exact h2

theorem verDone_pipeline (V : String) (data mp : Val) (t2 : Tree) (sd : List String)
    (d : Table) (hmp : ∀ mpt, mp = Val.table mpt → "project" ∉ keys mpt) :
    verDone V (sync_member_project_dependencies_doc t2 sd
      (toolApply mp (bsApply data (sync_version_doc V d).1))) = true := by
  have h1 := verDoc_verDone V d
  have h2 : verDone V (bsApply data (sync_version_doc V d).1) = true := by
    unfold bsApply
    split
    · exact verDone_setKey_ne V "build-system" data _ (by decide) h1
    · exact h1
  have h3 : verDone V (toolApply mp (bsApply data (sync_version_doc V d).1)) = true := by
    cases mp with
    | table mpt =>
      unfold toolApply
      split
      · exact verDone_merge V _ mpt (hmp mpt rfl) h2
      · exact h2
    | vNone =>
      unfold toolApply
      split
      · exact h2
      · exact h2
    | str s0 =>
      unfold toolApply
      split
      · exact h2
      · exact h2
    | int n0 =>
      unfold toolApply
      split
      · exact h2
      · exact h2
    | bool b0 =>
      unfold toolApply
      split
      · exact h2
      · exact h2
    | arr a0 =>
      unfold toolApply
      split
      · exact h2
      · exact h2
  exact depsDoc_verDone V t2 sd _ h3

theorem lookup_bs_pipeline (V : String) (data mp : Val) (t2 : Tree) (sd : List String)
    (d : Table) (hv : pyTruthy data = true)
    (hmp : ∀ mpt, mp = Val.table mpt → "build-system" ∉ keys mpt) :
    lookup "build-system" (sync_member_project_dependencies_doc t2 sd
      (toolApply mp (bsApply data (sync_version_doc V d).1))) = some data := by
  have h2 : lookup "build-system" (bsApply data (sync_version_doc V d).1) = some data := by
    unfold bsApply
    rw [if_pos hv]
    exact lookup_setKey_self _ _ _
  have h3 : lookup "build-system"
      (toolApply mp (bsApply data (sync_version_doc V d).1)) = some data := by
    cases mp with
    | table mpt =>
      unfold toolApply
      split
      · show lookup "build-system"
          (mergeTable (bsApply data (sync_version_doc V d).1) mpt) = some data
        rw [mergeTable_lookup_not_mem mpt _ "build-system" (hmp mpt rfl)]
        exact h2
      · exact h2
    | vNone =>
      unfold toolApply
      split
      · exact h2
      · exact h2
    | str s0 =>
      unfold toolApply
      split
      · exact h2
      · exact h2
    | int n0 =>
      unfold toolApply
      split
      · exact h2
      · exact h2
    | bool b0 =>
      unfold toolApply
      split
      · exact h2
      · exact h2
    | arr a0 =>
      unfold toolApply
      split
      · exact h2
      · exact h2
  rw [depsDoc_lookup_ne t2 sd _ "build-system" (by decide) (by decide)]
  exact h3

theorem merge_pipeline_fixed (V : String) (data : Val) (mpt : Table) (t2 : Tree)
    (sd : List String) (d : Table)
    (hnd : nodupDeepT mpt = true)
    (hp : "project" ∉ keys mpt)
    (htl : "tool" ∉ keys mpt) (hv : pyTruthy (Val.table mpt) = true) :
    mergeTable (sync_member_project_dependencies_doc t2 sd
      (toolApply (Val.table mpt) (bsApply data (sync_version_doc V d).1))) mpt =
    sync_member_project_dependencies_doc t2 sd
      (toolApply (Val.table mpt) (bsApply data (sync_version_doc V d).1)) := by
  have hZ : toolApply (Val.table mpt) (bsApply data (sync_version_doc V d).1)
      = mergeTable (bsApply data (sync_version_doc V d).1) mpt := by
    unfold toolApply
    rw [if_pos hv]
  refine mergeTable_noop_of_fixed mpt _ ?_
  intro q hq
  have hkq : q.1 ∈ keys mpt := List.mem_map_of_mem Prod.fst hq
  have hk1 : q.1 ≠ "tool" := fun hh => htl (hh ▸ hkq)
  have hk2 : q.1 ≠ "project" := fun hh => hp (hh ▸ hkq)
  have hlk : lookup q.1 (sync_member_project_dependencies_doc t2 sd
      (toolApply (Val.table mpt) (bsApply data (sync_version_doc V d).1))) =
      lookup q.1 (mergeTable (bsApply data (sync_version_doc V d).1) mpt) := by
    rw [depsDoc_lookup_ne t2 sd _ q.1 hk1 hk2, hZ]
  have hfix := mergeTable_lookup_fixed mpt hnd (bsApply data (sync_version_doc V d).1) q hq
  cases hq2 : q.2 with
  | table vt =>
    rw [hq2] at hfix
    obtain ⟨w, hw, hfx⟩ := hfix
    exact ⟨w, by rw [hlk]; exact hw, hfx⟩
  | vNone =>
    rw [hq2] at hfix
    rw [hlk]
    exact hfix
  | str s0 =>
    rw [hq2] at hfix
    rw [hlk]
    exact hfix
  | int n0 =>
    rw [hq2] at hfix
    rw [hlk]
    exact hfix
  | bool b0 =>
    rw [hq2] at hfix
    rw [hlk]
    exact hfix
  | arr a0 =>
    rw [hq2] at hfix
    rw [hlk]
    exact hfix

theorem tc_members_shape (V : String) (t : Tree) :
    (sync_member_project_tool (sync_build_system (sync_version V t))).members =
    t.members.map fun m =>
      (m.1, { m.2 with doc := (toolApply (memberProjectData t.root.doc)
        (bsApply ((lookup "build-system" t.root.doc).getD (Val.table []))
          (sync_version_doc V m.2.doc).1)) }) := by
  have hroot : (sync_version V t).root.doc = (sync_version_doc V t.root.doc).1 := rfl
  have hmem : (sync_version V t).members =
      t.members.map (fun m => (m.1, { m.2 with doc := (sync_version_doc V m.2.doc).1 })) := rfl
  rw [tool_members, bs_members, bs_root, hroot, mpd_verDoc,
    verDoc_lookup_ne V t.root.doc "build-system" (by decide), hmem]
  simp only [List.map_map]
  exact map_ext _ _ (fun m => rfl) t.members

theorem tc_root_doc (V : String) (t : Tree) :
    (sync_member_project_tool (sync_build_system (sync_version V t))).root.doc =
      (sync_version_doc V t.root.doc).1 := by
  rw [tool_root, bs_root]
  rfl

/-- The full orchestrated run is idempotent, given: regex-class project names;
sound `tool.uv.sources` chains in every document; and a propagated
`tool.member-project` section that (when truthy) is a unique-keyed table not
itself carrying a `project`, `build-system` or `tool` section — without the
last condition the later shared-tool merge re-introduces state that the
earlier phases then rewrite on the next run (see the counterexample). -/
theorem runAll_idem (V : String) (t : Tree)
    (hn : namesOK t = true)
    (hchr : chainOK ["tool", "uv", "sources"] t.root.doc = true)
    (hchm : ∀ m ∈ t.members, chainOK ["tool", "uv", "sources"] m.2.doc = true)
    (hmp : match memberProjectData t.root.doc with
      | Val.table mpt => nodupDeepT mpt = true ∧ "project" ∉ keys mpt ∧
          "build-system" ∉ keys mpt ∧ "tool" ∉ keys mpt
      | v => pyTruthy v = false) :
    runAll V (runAll V t) = runAll V t := by
  have hmpconds : ∀ mpt, memberProjectData t.root.doc = Val.table mpt →
      nodupDeepT mpt = true ∧ "project" ∉ keys mpt ∧ "build-system" ∉ keys mpt ∧
        "tool" ∉ keys mpt := by
    intro mpt he
    rw [he] at hmp
    exact hmp
  have hmpP : ∀ mpt, memberProjectData t.root.doc = Val.table mpt → "project" ∉ keys mpt :=
    fun mpt he => (hmpconds mpt he).2.1
  have hmpB : ∀ mpt, memberProjectData t.root.doc = Val.table mpt →
      "build-system" ∉ keys mpt := fun mpt he => (hmpconds mpt he).2.2.1
  have hmpT : ∀ mpt, memberProjectData t.root.doc = Val.table mpt → "tool" ∉ keys mpt :=
    fun mpt he => (hmpconds mpt he).2.2.2
  have hroot1 : (runAll V t).root.doc =
      sync_member_project_dependencies_doc
        (sync_member_project_tool (sync_build_system (sync_version V t)))
        t.root.dir (sync_version_doc V t.root.doc).1 := by
    rw [runAll_root]
  have hvd_root : verDone V ((runAll V t).root.doc) = true := by
    rw [hroot1]
    exact depsDoc_verDone V _ _ _ (verDoc_verDone V t.root.doc)
  have hvd_mem : ∀ m1 ∈ (runAll V t).members, verDone V m1.2.doc = true := by
    intro m1 hm1
    rw [runAll_members_shape] at hm1
    obtain ⟨m, hm, rfl⟩ := List.mem_map.mp hm1
    exact verDone_pipeline V _ _ _ m.2.dir m.2.doc hmpP
  have hver2 : sync_version V (runAll V t) = runAll V t :=
    sync_version_noop V _ hvd_root hvd_mem
  have hbsdata1 : (lookup "build-system" (runAll V t).root.doc).getD (Val.table []) =
      (lookup "build-system" t.root.doc).getD (Val.table []) := by
    rw [hroot1,
      depsDoc_lookup_ne (sync_member_project_tool (sync_build_system (sync_version V t)))
        t.root.dir (sync_version_doc V t.root.doc).1 "build-system" (by decide) (by decide),
      verDoc_lookup_ne V t.root.doc "build-system" (by decide)]
  have hbs2 : sync_build_system (runAll V t) = runAll V t := by
    refine sync_build_system_noop _ ?_
    intro hv m1 hm1
    rw [hbsdata1] at hv ⊢
    rw [runAll_members_shape] at hm1
    obtain ⟨m, hm, rfl⟩ := List.mem_map.mp hm1
    exact setKey_same "build-system" _ _
      (lookup_bs_pipeline V _ _ _ m.2.dir m.2.doc hv hmpB)
  have hmpd1 : memberProjectData (runAll V t).root.doc = memberProjectData t.root.doc := by
    rw [hroot1,
      mpd_depsDoc (sync_member_project_tool (sync_build_system (sync_version V t)))
        t.root.dir (sync_version_doc V t.root.doc).1 (chainOK_verDoc V t.root.doc hchr),
      mpd_verDoc]
  have htool2 : sync_member_project_tool (runAll V t) = runAll V t := by
    refine sync_member_project_tool_noop _ ?_ ?_
    · intro mpt hmpt m1 hm1
      rw [hmpd1] at hmpt
      rw [runAll_members_shape] at hm1
      obtain ⟨m, hm, rfl⟩ := List.mem_map.mp hm1
      rw [hmpt]
      by_cases hv : pyTruthy (Val.table mpt) = true
      · exact merge_pipeline_fixed V _ mpt _ m.2.dir m.2.doc (hmpconds mpt hmpt).1
          (hmpP mpt hmpt) (hmpT mpt hmpt) hv
      · have hv2 : pyTruthy (Val.table mpt) = false := by
          cases hcase : pyTruthy (Val.table mpt)
          · rfl
          · exact absurd hcase hv
        rw [pyTruthy_table_false hv2]
        exact mergeTable_nil _
    · intro hv
      rw [hmpd1] at hv
      cases hc : memberProjectData t.root.doc with
      | table mpt => exact ⟨mpt, by rw [hmpd1, hc]⟩
      | vNone =>
        rw [hc] at hv
        simp [pyTruthy] at hv
      | str s0 =>
        have hmp2 : pyTruthy (Val.str s0) = false := by
          have h := hmp
          rw [hc] at h
          exact h
        rw [hc, hmp2] at hv
        cases hv
      | int n0 =>
        have hmp2 : pyTruthy (Val.int n0) = false := by
          have h := hmp
          rw [hc] at h
          exact h
        rw [hc, hmp2] at hv
        cases hv
      | bool b0 =>
        have hmp2 : pyTruthy (Val.bool b0) = false := by
          have h := hmp
          rw [hc] at h
          exact h
        rw [hc, hmp2] at hv
        cases hv
      | arr a0 =>
        have hmp2 : pyTruthy (Val.arr a0) = false := by
          have h := hmp
          rw [hc] at h
          exact h
        rw [hc, hmp2] at hv
        cases hv
  have htopo : topo (sync_member_project_tool (sync_build_system (sync_version V t))) =
      topo t := by
    rw [topo_sync_member_project_tool, topo_sync_build_system, topo_sync_version]
  have hdeps2 : sync_member_project_dependencies (runAll V t) = runAll V t := by
    have he : runAll V t = sync_member_project_dependencies
        (sync_member_project_tool (sync_build_system (sync_version V t))) := rfl
    rw [he]
    refine sync_member_project_dependencies_idem _ ?_ ?_ ?_
    · rw [namesOK_congr t _ htopo]
      exact hn
    · rw [tc_root_doc]
      exact chainOK_verDoc V t.root.doc hchr
    · intro m0 hm0
      rw [tc_members_shape] at hm0
      obtain ⟨m, hm, rfl⟩ := List.mem_map.mp hm0
      exact chainOK_pipeline V _ _ m.2.doc (hchm m hm) hmpT
  show sync_member_project_dependencies (sync_member_project_tool (sync_build_system
    (sync_version V (runAll V t)))) = runAll V t
  rw [hver2, hbs2, htool2, hdeps2]

/-! ## C1: idempotence of the synchronization operations -/

/-- A workspace whose root propagates a `tool.member-project` section that
contains a `project` table: the first run's shared-tool merge introduces a
`project` table into the member, which the second run's version stage then
populates with a `version` — so the orchestrated sequence writes again. -/
def cexTree : Tree where
  name := "ws"
  root :=
    { dir := ["w"],
      doc := [("tool", .table [("member-project",
        .table [("project", .table [("name", .str "x")])])])] }
  members := [("m", { dir := ["w", "m"], doc := [] })]

/-- Whether member `m`'s `project` table carries a `version`. -/
def cexObs (t2 : Tree) : Bool :=
  match lookupMember "m" t2.members with
  | some p =>
    match lookup "project" p.doc with
    | some (.table pr) => (lookup "version" pr).isSome
    | _ => false
  | none => false

/-- The workspace after one orchestrated run: the shared-tool merge has
given member `m` a `project` table (still without a `version`). -/
def cexT1 : Tree :=
  { cexTree with members := [("m", { dir := ["w", "m"], doc := [("project", Val.table [("name", Val.str "x")])] })] }

/-- The workspace after a second orchestrated run: the version stage has now
populated the merged-in `project` table. -/
def cexT2 : Tree :=
  { cexTree with members := [("m", { dir := ["w", "m"], doc := [("project", Val.table [("name", Val.str "x"), ("version", Val.str "1.0")])] })] }

/-- C1 counterexample: the orchestrated sequence is not idempotent for every
workspace state.  On `cexTree` the first run's `tool.member-project` merge
gives member `m` a `project` table with no `version`; the second run's version
stage then assigns the version, changing the document again (a second write),
so `runAll` twice differs from `runAll` once. -/
theorem runAll_tool_reintroduces_project :
    runAll "1.0" (runAll "1.0" cexTree) ≠ runAll "1.0" cexTree := by
  have hmerge1 : mergeTable ([] : Table) [("project", Val.table [("name", Val.str "x")])] =
      [("project", Val.table [("name", Val.str "x")])] := by
    rw [mergeTable_cons, mergeTable_nil,
      mergeEntry_table_other [] "project" _ (by intro dk hh; simp [lookup] at hh)]
    rfl
  have hmerge2 : mergeTable [("name", Val.str "x"), ("version", Val.str "1.0")]
      [("name", Val.str "x")] = [("name", Val.str "x"), ("version", Val.str "1.0")] := by
    rw [mergeTable_cons, mergeTable_nil,
      mergeEntry_nontable _ _ _ (fun sk hh => Val.noConfusion hh)]
    rfl
  have hmerge3 : mergeTable [("project", Val.table [("name", Val.str "x"), ("version", Val.str "1.0")])]
      [("project", Val.table [("name", Val.str "x")])] =
      [("project", Val.table [("name", Val.str "x"), ("version", Val.str "1.0")])] := by
    rw [mergeTable_cons, mergeTable_nil,
      mergeEntry_table_table [("project", Val.table [("name", Val.str "x"), ("version", Val.str "1.0")])] "project" [("name", Val.str "x"), ("version", Val.str "1.0")] [("name", Val.str "x")] rfl, hmerge2]
    rfl
  have h2 : sync_version "1.0" cexTree = cexTree := rfl
  have h3 : sync_build_system cexTree = cexTree := rfl
  have h4 : sync_member_project_tool cexTree = cexT1 := by
    show ({ cexTree with members := [("m", { dir := ["w", "m"], doc := (mergeTable ([] : Table) [("project", Val.table [("name", Val.str "x")])]) })] } : Tree) = cexT1
    rw [hmerge1]
    rfl
  have h5 : sync_member_project_dependencies cexT1 = cexT1 := rfl
  have e1 : runAll "1.0" cexTree = cexT1 := by
    show sync_member_project_dependencies
      (sync_member_project_tool (sync_build_system (sync_version "1.0" cexTree))) = cexT1
    rw [h2, h3, h4, h5]
  have g2 : sync_version "1.0" cexT1 = cexT2 := rfl
  have g3 : sync_build_system cexT2 = cexT2 := rfl
  have g4 : sync_member_project_tool cexT2 = cexT2 := by
    show ({ cexTree with members := [("m", { dir := ["w", "m"], doc := (mergeTable [("project", Val.table [("name", Val.str "x"), ("version", Val.str "1.0")])] [("project", Val.table [("name", Val.str "x")])]) })] } : Tree) = cexT2
    rw [hmerge3]
    rfl
  have g5 : sync_member_project_dependencies cexT2 = cexT2 := rfl
  have e2 : runAll "1.0" cexT1 = cexT2 := by
    show sync_member_project_dependencies
      (sync_member_project_tool (sync_build_system (sync_version "1.0" cexT1))) = cexT2
    rw [g2, g3, g4, g5]
  intro h
  rw [e1, e2] at h
  have h3 := congrArg cexObs h
  rw [show cexObs cexT2 = true from rfl, show cexObs cexT1 = false from rfl] at h3
  cases h3

/-- A well-formed workspace for the witness: root propagates a build-system
and a separate `tool.member-project` section; member `a` depends on member
`b`. -/
def wfTree : Tree where
  name := "ws"
  root :=
    { dir := ["w"],
      doc := [("build-system", Val.table [("build-backend", Val.str "hatch")]),
        ("tool", Val.table [("member-project", Val.table [("keep", Val.bool true)])])] }
  members :=
    [("a", { dir := ["w", "a"], doc := [("project", Val.table [("name", Val.str "a"), ("version", Val.str "0.9"), ("dependencies", Val.arr [Val.str "b"])])] }),
     ("b", { dir := ["w", "b"], doc := [] })]

/-- C1: each synchronization operation is idempotent, and — CORRECTED — the
orchestrated sequence is idempotent only under an extra separation condition.
Version assignment and build-system propagation are unconditionally
idempotent; the shared-tool merge is idempotent when the propagated
`tool.member-project` table has unique keys at every level; the dependency
rewriting is idempotent for regex-class project names and sound
`tool.uv.sources` chains.  The full `runAll` sequence additionally requires
the propagated `tool.member-project` table not to carry a `project`,
`build-system` or `tool` section of its own: otherwise the merge
re-introduces state that the earlier phases rewrite again on the second run,
producing a second write (see `runAll_tool_reintroduces_project`). -/
theorem sync_operations_idempotence (V : String) (t : Tree)
    (hmp : nodupDeepV (memberProjectData t.root.doc) = true)
    (hn : namesOK t = true)
    (hchr : chainOK ["tool", "uv", "sources"] t.root.doc = true)
    (hchm : ∀ m ∈ t.members, chainOK ["tool", "uv", "sources"] m.2.doc = true)
    (hsep : match memberProjectData t.root.doc with
      | Val.table mpt => "project" ∉ keys mpt ∧ "build-system" ∉ keys mpt ∧
          "tool" ∉ keys mpt
      | v => pyTruthy v = false) :
    sync_version V (sync_version V t) = sync_version V t ∧
    sync_build_system (sync_build_system t) = sync_build_system t ∧
    sync_member_project_tool (sync_member_project_tool t) = sync_member_project_tool t ∧
    sync_member_project_dependencies (sync_member_project_dependencies t) =
      sync_member_project_dependencies t ∧
    runAll V (runAll V t) = runAll V t := by
  refine ⟨sync_version_idem V t, sync_build_system_idem t,
    sync_member_project_tool_idem t hmp,
    sync_member_project_dependencies_idem t hn hchr hchm, ?_⟩
  refine runAll_idem V t hn hchr hchm ?_
  cases hc : memberProjectData t.root.doc with
  | table mpt =>
    have hsep2 := hsep
    rw [hc] at hsep2 hmp
    exact ⟨by simpa [nodupDeepV] using hmp, hsep2.1, hsep2.2.1, hsep2.2.2⟩
  | vNone =>
    have hsep2 := hsep
    rw [hc] at hsep2
    exact hsep2
  | str s0 =>
    have hsep2 := hsep
    rw [hc] at hsep2
    exact hsep2
  | int n0 =>
    have hsep2 := hsep
    rw [hc] at hsep2
    exact hsep2
  | bool b0 =>
    have hsep2 := hsep
    rw [hc] at hsep2
    exact hsep2
  | arr a0 =>
    have hsep2 := hsep
    rw [hc] at hsep2
    exact hsep2

/-- Witness for C1 at a concrete well-formed workspace: the hypotheses hold
and all five idempotence conclusions follow. -/
theorem sync_operations_idempotence_witness :
    (nodupDeepV (memberProjectData wfTree.root.doc) = true ∧
      namesOK wfTree = true ∧
      chainOK ["tool", "uv", "sources"] wfTree.root.doc = true ∧
      (∀ m ∈ wfTree.members, chainOK ["tool", "uv", "sources"] m.2.doc = true)) ∧
    (sync_version "1.0" (sync_version "1.0" wfTree) = sync_version "1.0" wfTree ∧
      sync_build_system (sync_build_system wfTree) = sync_build_system wfTree ∧
      sync_member_project_tool (sync_member_project_tool wfTree) =
        sync_member_project_tool wfTree ∧
      sync_member_project_dependencies (sync_member_project_dependencies wfTree) =
        sync_member_project_dependencies wfTree ∧
      runAll "1.0" (runAll "1.0" wfTree) = runAll "1.0" wfTree) :=
  ⟨⟨by decide, by decide, by decide, by decide⟩,
    sync_operations_idempotence "1.0" wfTree (by decide) (by decide) (by decide)
      (by decide) ⟨by decide, by decide, by decide⟩⟩

end ReggieBuild
